import Mathlib

/-!
# workers-scale: capacity distributor, convergence waiter and latency samples

A shallow embedding of three functions of the repository

* `adjustMachineSets`   (`workerscale/core/base.go`)
* `waitForMachineSets`  (`workerscale/core/autoscaler.go`)
* `calculateMetrics`    (`workerscale/metrics.go`, the part that builds the latency samples)

together with theorems about them.

Modelling conventions.

* A Go map is an association list holding one entry per key; `mapLoad`, `mapStore` and
  `mapDelete` are lookup, assignment and `delete`.  The order of the list stands for the
  (unspecified) order in which Go iterates over the map.
* A Go slice is a list.  The slices of the size map never share a backing array with
  each other, so value semantics is exact.
* Go `int` and `int64` are 64 bit: a value is an `Int`, and an addition that may leave
  the range wraps around (`wrapInt`).
* A runtime panic, or a model loop that runs out of fuel, is a `Fault`.
* A `time.Time` is the number of nanoseconds since the Unix epoch; `time.Unix` counts
  the seconds from year 1 in an `int64`, which wraps, and `time.Time.Sub` saturates at the
  64 bit range of a `time.Duration`, as the Go library documents.
-/

namespace WorkersScale

/-! ## Go maps as association lists -/

section GoMap

variable {κ : Type} {ν : Type} [DecidableEq κ]

/-- Lookup `m[k]` with the comma-ok result of Go. -/
def mapLoad : List (κ × ν) → κ → Option ν
  | [], _ => none
  | (k', v) :: m, k => if k' = k then some v else mapLoad m k

/-- Assignment `m[k] = v`: replaces the entry of `k`, or adds one. -/
def mapStore : List (κ × ν) → κ → ν → List (κ × ν)
  | [], k, v => [(k, v)]
  | (k', v') :: m, k, v => if k' = k then (k, v) :: m else (k', v') :: mapStore m k v

/-- Removal `delete(m, k)`. -/
def mapDelete (m : List (κ × ν)) (k : κ) : List (κ × ν) :=
  m.filter (fun e => decide (e.1 ≠ k))

/-- The keys of a map, in list order. -/
def mapKeys (m : List (κ × ν)) : List κ :=
  m.map Prod.fst

end GoMap

/-! ## Data model -/

/-- A `time.Time`, as nanoseconds since the Unix epoch. -/
abbrev Time := Int

/-- The zero value `time.Time{}`: January 1, year 1, 00:00:00 UTC. -/
def zeroTime : Time := -62135596800000000000

/-- Modelled from the spec: the type declaration of `MachineSetInfo` is not among the
source files; the spec names it GroupEdit with previous size, target size and trigger
timestamp.  The three fields are the ones the source reads and writes. -/
structure MachineSetInfo where
  lastUpdatedTime : Time
  prevReplicas : Int
  currentReplicas : Int
  deriving DecidableEq, Repr

/-- Runtime failures of the embedded code. -/
inductive Fault where
  | indexOutOfRange
  | sliceBoundsOutOfRange
  | nilTypeAssertion
  | outOfFuel
  deriving DecidableEq, Repr

/-- The size map `map[int][]string`: group names by current replica count. -/
abbrev SizeMap := List (Int × List String)

/-- The plan `machineSetsToEdit`, a `sync.Map` from group name to `MachineSetInfo`. -/
abbrev Plan := List (String × MachineSetInfo)

/-- The least `int` of Go on a 64 bit platform. -/
def minInt64 : Int := -9223372036854775808

/-- The largest `int` of Go on a 64 bit platform. -/
def maxInt64 : Int := 9223372036854775807

/-- The result of a Go `int` operation whose exact value is `x`: `x` modulo `2^64`, in
the signed range. -/
def wrapInt (x : Int) : Int :=
  (x + 9223372036854775808) % 18446744073709551616 - 9223372036854775808

/-! ## adjustMachineSets -/

/-- The variables of `adjustMachineSets` that the loops read and write. -/
structure AdjustState where
  replicas : SizeMap
  plan : Plan
  keys : List Int
  index : Nat
  lastIndex : Nat
  desired : Int
  modified : Bool
  deriving DecidableEq, Repr

/-- Lines 86-95: create the plan entry of `machineSet` when it is missing, load it back,
assert its type and store it with `CurrentReplicas = value + 1`. -/
def bumpPlan (value : Int) (plan : Plan) (machineSet : String) : Except Fault Plan :=
  let plan1 :=
    match mapLoad plan machineSet with
    | some _ => plan
    | none => mapStore plan machineSet
        { lastUpdatedTime := zeroTime, prevReplicas := value,
          currentReplicas := wrapInt (value + 1) }
  match mapLoad plan1 machineSet with
  | none => .error .nilTypeAssertion
  | some msInfo =>
    .ok (mapStore plan1 machineSet { msInfo with currentReplicas := wrapInt (value + 1) })

/-- Lines 84-103: `for index, machineSet := range machineSets`, started at position
`index` of the bucket.  `value + 1` is a Go `int` addition; `desiredWorkerCount--` runs on
a positive count only and cannot wrap. -/
def rangeMachineSets (value : Int) : List String → Nat → AdjustState → Except Fault AdjustState
  | [], _, s => .ok s
  | machineSet :: rest, index, s =>
    if 0 < s.desired then
      match bumpPlan value s.plan machineSet with
      | .error f => .error f
      | .ok plan =>
        let next := (mapLoad s.replicas (wrapInt (value + 1))).getD [] ++ [machineSet]
        rangeMachineSets value rest (index + 1)
          { s with
            replicas := mapStore s.replicas (wrapInt (value + 1)) next
            plan := plan
            lastIndex := index
            desired := s.desired - 1
            modified := true }
    else .ok s

/-- Lines 83-109: the bucket of `value`, when it exists, is ranged over and then deleted
or cut to `machineSets[lastIndex+1:]`. -/
def processBucket (value : Int) (s : AdjustState) : Except Fault AdjustState :=
  match mapLoad s.replicas value with
  | none => .ok s
  | some machineSets =>
    match rangeMachineSets value machineSets 0 s with
    | .error f => .error f
    | .ok s1 =>
      if (s1.lastIndex : Int) = (machineSets.length : Int) - 1 then
        .ok { s1 with replicas := mapDelete s1.replicas value }
      else if s1.lastIndex + 1 ≤ machineSets.length then
        .ok { s1 with replicas := mapStore s1.replicas value (machineSets.drop (s1.lastIndex + 1)) }
      else .error .sliceBoundsOutOfRange

/-- Line 110: `modified && (index == len(keys)-1) || (value+1 != keys[index+1])`, where
`&&` binds tighter than `||` and `keys[index+1]` is evaluated only when the left operand
is false. -/
def insertCondition (value : Int) (s : AdjustState) : Except Fault Bool :=
  if s.modified && decide ((s.index : Int) = (s.keys.length : Int) - 1) then .ok true
  else
    match s.keys[s.index + 1]? with
    | none => .error .indexOutOfRange
    | some next => .ok (decide (wrapInt (value + 1) ≠ next))

/-- Lines 81-116: one pass of the body of the outer loop.  The Boolean tells whether the
loop goes on (`index++`) or was left by `break`. -/
def outerBody (s : AdjustState) : Except Fault (AdjustState × Bool) :=
  match s.keys[s.index]? with
  | none => .error .indexOutOfRange
  | some value =>
    match processBucket value { s with modified := false } with
    | .error f => .error f
    | .ok s1 =>
      match insertCondition value s1 with
      | .error f => .error f
      | .ok c =>
        let keys :=
          if c then
            s1.keys.take (s1.index + 1) ++ ([wrapInt (value + 1)] ++ s1.keys.drop (s1.index + 1))
          else s1.keys
        if s1.desired ≤ 0 then .ok ({ s1 with keys := keys }, false)
        else .ok ({ s1 with keys := keys, index := s1.index + 1 }, true)

/-- Lines 80-117: `for index < len(keys)`, with a bound on the number of passes. -/
def outerLoop : Nat → AdjustState → Except Fault AdjustState
  | 0, _ => .error .outOfFuel
  | fuel + 1, s =>
    if s.index < s.keys.length then
      match outerBody s with
      | .error f => .error f
      | .ok (s1, true) => outerLoop fuel s1
      | .ok (s1, false) => .ok s1
    else .ok s

/-- Lines 72-79: the state before the first pass; `keys` are the keys of the map, sorted
by `sort.Ints`. -/
def initState (machineSetReplicas : SizeMap) (desiredWorkerCount : Int) : AdjustState :=
  { replicas := machineSetReplicas
    plan := []
    keys := (mapKeys machineSetReplicas).insertionSort (fun a b => a ≤ b)
    index := 0
    lastIndex := 0
    desired := desiredWorkerCount
    modified := false }

/-- The function `adjustMachineSets`.  It returns the plan; the size map is passed by
reference and is mutated, so the map as it is left is returned with it.  Every pass that
goes on has used at least one requested unit, so `desiredWorkerCount + 1` passes are
enough: the theorems below show that the bound is never reached on a well-formed map
within the range of the Go `int`. -/
def adjustMachineSets (machineSetReplicas : SizeMap) (desiredWorkerCount : Int) :
    Except Fault (Plan × SizeMap) :=
  match outerLoop (desiredWorkerCount.toNat + 1) (initState machineSetReplicas desiredWorkerCount) with
  | .error f => .error f
  | .ok s => .ok (s.plan, s.replicas)

/-- The total growth of a plan: the sum of `CurrentReplicas - PrevReplicas`. -/
def planGrowth (plan : Plan) : Int :=
  (plan.map (fun e => e.2.currentReplicas - e.2.prevReplicas)).sum

/-- The number of groups of a size map. -/
def groupCount (m : SizeMap) : Nat :=
  (m.map (fun e => e.2.length)).sum

/-- A size map as the inventory delivers it: one bucket per size, no empty bucket, and
no group name twice. -/
def WellFormed (m : SizeMap) : Prop :=
  (mapKeys m).Nodup ∧ (∀ e ∈ m, e.2 ≠ []) ∧ (m.flatMap Prod.snd).Nodup

instance (m : SizeMap) : Decidable (WellFormed m) := by
  unfold WellFormed; infer_instance

/-- The sizes and the request stay inside the Go `int`: every size of the map is one, and
the least size plus the request is at most the largest `int`, so that no `value + 1` of
the loop wraps around. -/
def InRange (m : SizeMap) (d : Int) : Prop :=
  (∀ k ∈ mapKeys m, minInt64 ≤ k ∧ k ≤ maxInt64) ∧
    ∀ k ∈ mapKeys m, (∀ k' ∈ mapKeys m, k ≤ k') → k + d ≤ maxInt64

instance (m : SizeMap) (d : Int) : Decidable (InRange m d) := by
  unfold InRange; infer_instance

/-! ## Auxiliary definitions for the analysis of adjustMachineSets -/

/-- The entry that an increment at `value` leaves for a group whose entry was `old`. -/
def bumpedInfo (value : Int) (old : Option MachineSetInfo) : MachineSetInfo :=
  match old with
  | some e => { e with currentReplicas := value + 1 }
  | none => { lastUpdatedTime := zeroTime, prevReplicas := value, currentReplicas := value + 1 }

/-- The plan after an increment of `machineSet` at `value`. -/
def bumped (value : Int) (plan : Plan) (machineSet : String) : Plan :=
  mapStore plan machineSet (bumpedInfo value (mapLoad plan machineSet))

/-- The bucket of size `k`, empty when the map has none. -/
def bucketOf (m : SizeMap) (k : Int) : List String :=
  (mapLoad m k).getD []

/-- The bucket that the pass number `n` finds at size `v0 + n`: the groups of the input
map of the sizes `v0 + n` down to `v0`. -/
def lower (orig : SizeMap) (v0 : Int) : Nat → List String
  | 0 => bucketOf orig v0
  | n + 1 => bucketOf orig (v0 + ((n + 1 : Nat) : Int)) ++ lower orig v0 n

/-- What the loop needs of the input map: `v0` is its least size, a Go `int`, with a
non-empty bucket, and no group name occurs twice. -/
structure OrigOK (orig : SizeMap) (v0 : Int) : Prop where
  inRange : minInt64 ≤ v0
  least : ∀ k, k < v0 → mapLoad orig k = none
  first : bucketOf orig v0 ≠ []
  disjoint : ∀ k1 k2 g, g ∈ bucketOf orig k1 → g ∈ bucketOf orig k2 → k1 = k2
  nodup : ∀ k, (bucketOf orig k).Nodup

/-- The state at the beginning of pass number `n` of the outer loop. -/
structure LoopInv (orig : SizeMap) (d0 v0 : Int) (n : Nat) (s : AdjustState) : Prop where
  key : s.keys[s.index]? = some (v0 + (n : Int))
  replicas : ∀ k, mapLoad s.replicas k =
    if k < v0 + (n : Int) then none
    else if k = v0 + (n : Int) then some (lower orig v0 n) else mapLoad orig k
  desired : 0 < s.desired
  nodup : (mapKeys s.plan).Nodup
  entries : ∀ g e, mapLoad s.plan g = some e →
    e.currentReplicas = v0 + (n : Int) ∧ v0 ≤ e.prevReplicas ∧ e.prevReplicas < v0 + (n : Int) ∧
      g ∈ bucketOf orig e.prevReplicas
  covered : ∀ k g, g ∈ bucketOf orig k → k < v0 + (n : Int) → mapLoad s.plan g ≠ none
  growth : planGrowth s.plan + s.desired = d0
  room : v0 + (n : Int) + s.desired ≤ maxInt64

/-- The plan when the loop is left at size `v`. -/
structure Final (orig : SizeMap) (d0 v : Int) (plan : Plan) : Prop where
  nodup : (mapKeys plan).Nodup
  growth : planGrowth plan = d0
  entries : ∀ g e, mapLoad plan g = some e →
    (e.currentReplicas = v ∨ e.currentReplicas = v + 1) ∧
      e.prevReplicas < e.currentReplicas ∧ g ∈ bucketOf orig e.prevReplicas
  untouched : ∀ k g, g ∈ bucketOf orig k → mapLoad plan g = none → v ≤ k


/-- The size of a group after the plan is applied: its `CurrentReplicas` when the plan
holds it, else the size it has in the input map. -/
def finalSize (plan : Plan) (inputSize : Int) (g : String) : Int :=
  match mapLoad plan g with
  | some e => e.currentReplicas
  | none => inputSize

/-! ## waitForMachineSets -/

/-- The conversion `int32(r)` of Go: the low 32 bits, read as a signed number. -/
def toInt32 (r : Int) : Int :=
  (r + 2147483648) % 4294967296 - 2147483648

/-- What `waitForMachineSets` does to the outside, besides the plan. -/
inductive WaitEvent where
  | waitStarted (machineSet : String) (replicas : Int)
  | waitFailureLogged (machineSet : String)
  | allScaledLogged
  | nodesWaited
  deriving DecidableEq, Repr

/-- The result of `waitForMachineSets`: the plan as it is left, the events in the order
of the `Range` call, and whether `log.Fatalf` has ended the run. -/
structure WaitOutcome where
  plan : Plan
  events : List WaitEvent
  aborted : Bool
  deriving DecidableEq, Repr

/-- Lines 293-307: the callback of `machineSetsToEdit.Range` on one entry.  The
goroutine calls the external `WaitForMachineSet`, whose failure (`true`) is only logged;
the goroutines run concurrently and touch nothing of the plan. -/
def rangeCallback (waitForMachineSet : String → Int → Bool) (triggerTime : Time)
    (acc : Plan × List WaitEvent) (entry : String × MachineSetInfo) : Plan × List WaitEvent :=
  let machineSet := entry.1
  let msInfo := { entry.2 with lastUpdatedTime := triggerTime }
  let r := toInt32 msInfo.currentReplicas
  (mapStore acc.1 machineSet msInfo,
    acc.2 ++ [WaitEvent.waitStarted machineSet r] ++
      (if waitForMachineSet machineSet r then [WaitEvent.waitFailureLogged machineSet] else []))

/-- The function `waitForMachineSets`.  `waitForMachineSet` and `waitForNodes` stand for
the external `wscale.WaitForMachineSet` and `wscale.WaitForNodes`; `true` is a returned
error.  `Range` visits every entry once. -/
def waitForMachineSets (waitForMachineSet : String → Int → Bool) (waitForNodes : Bool)
    (machineSetsToEdit : Plan) (triggerTime : Time) : WaitOutcome :=
  let r := machineSetsToEdit.foldl (rangeCallback waitForMachineSet triggerTime)
    (machineSetsToEdit, [])
  { plan := r.1
    events := r.2 ++ [WaitEvent.allScaledLogged, WaitEvent.nodesWaited]
    aborted := waitForNodes }

/-- The plan entry with the trigger time recorded. -/
def stamped (triggerTime : Time) (entry : String × MachineSetInfo) : String × MachineSetInfo :=
  (entry.1, { entry.2 with lastUpdatedTime := triggerTime })

/-- The events of the `Range` callback on one entry: the wait of the group is started,
and its failure, if any, is logged. -/
def waitEventsOf (waitForMachineSet : String → Int → Bool) (entry : String × MachineSetInfo) :
    List WaitEvent :=
  [WaitEvent.waitStarted entry.1 (toInt32 entry.2.currentReplicas)] ++
    (if waitForMachineSet entry.1 (toInt32 entry.2.currentReplicas)
      then [WaitEvent.waitFailureLogged entry.1] else [])

/-! ## calculateMetrics: the latency samples -/

/-- The least `time.Duration`, in nanoseconds. -/
def minDuration : Int := -9223372036854775808

/-- The largest `time.Duration`, in nanoseconds. -/
def maxDuration : Int := 9223372036854775807

/-- The method `t.Sub(u)` of `time.Time`: the difference in nanoseconds; when it does not
fit a `time.Duration` the least or the largest duration is returned. -/
def timeSub (t u : Time) : Int :=
  if t - u < minDuration then minDuration
  else if maxDuration < t - u then maxDuration
  else t - u

/-- The method `d.Milliseconds()`: the integer division of Go, which truncates toward
zero. -/
def milliseconds (d : Int) : Int :=
  Int.tdiv d 1000000

/-- The seconds from January 1, year 1 to the Unix epoch, `unixToInternal` of the Go
library. -/
def unixToInternal : Int := 62135596800

/-- The call `time.Unix(sec, 0)`: the library keeps the `int64` sum
`sec + unixToInternal`, the seconds since year 1, and that sum wraps around. -/
def unixTime (sec : Int) : Time :=
  (wrapInt (sec + unixToInternal) - unixToInternal) * 1000000000

/-- Modelled from the spec: the type declaration of `MachineInfo` is not among the
source files; the spec names it MachineRecord with node UID, creation and ready
timestamps.  The fields are the ones the source reads. -/
structure MachineInfo where
  nodeUID : String
  creationTimestamp : Time
  readyTimestamp : Time
  deriving DecidableEq, Repr

/-- A label map `map[string]string`. -/
abbrev Labels := List (String × String)

/-- The fields of `measurements.NodeMetric` that the source reads. -/
structure NodeMetric where
  uuid : String
  name : String
  labels : Labels
  timestamp : Time
  nodeReady : Time
  deriving DecidableEq, Repr

/-- Modelled from the spec: the type declaration of `NodeReadyMetric` is not among the
source files; the spec names it LatencySample.  The fields are those of the literal in
lines 102-120, without `Timestamp` (the wall clock at emission) and `Metadata` (passed
through unread). -/
structure NodeReadyMetric where
  scaleEventTimestamp : Time
  machineCreationTimestamp : Time
  machineCreationLatency : Int
  machineReadyTimestamp : Time
  machineReadyLatency : Int
  nodeCreationTimestamp : Time
  nodeCreationLatency : Int
  nodeReadyTimestamp : Time
  nodeReadyLatency : Int
  metricName : String
  uuid : String
  amiID : String
  jobName : String
  name : String
  labels : Labels
  deriving DecidableEq, Repr

/-- The constant `JobName`. -/
def JobName : String := "workers-scale"

/-- The constant `nodeReadyLatencyMeasurement`. -/
def nodeReadyLatencyMeasurement : String := "nodeReadyLatencyMeasurement"

/-- The call `strings.LastIndex(s, "-")` for the one character `c`, `none` for `-1`. -/
def lastIndexOf (c : Char) : List Char → Option Nat
  | [] => none
  | x :: xs =>
    match lastIndexOf c xs with
    | some i => some (i + 1)
    | none => if x = c then some 0 else none

/-- Lines 77-80: the group that owns a machine, `machine[:lastHypenIndex]`, when the name
has a hyphen. -/
def ownerGroup (machine : String) : Option String :=
  match lastIndexOf '-' machine.data with
  | some i => some (String.mk (machine.data.take i))
  | none => none

/-- The call `strings.ReplaceAll(key, ".", "_")`. -/
def replaceDots (key : String) : String :=
  String.mk (key.data.map (fun c => if c = '.' then '_' else c))

/-- Lines 98-100: the body of the loop over the labels, for a key that the `range`
statement produces; a key that is no longer in the map is not produced. -/
def sanitizeEntry (labels : Labels) (key : String) : Labels :=
  match mapLoad labels key with
  | none => labels
  | some value => mapDelete (mapStore labels (replaceDots key) value) key

/-- Lines 97-101: `for key, value := range nodeMetricValue.Labels`, the loop mutating
the map it ranges over.  `order` is the sequence of keys that the `range` statement
produces; Go leaves it open (see `rangeLegal`). -/
def sanitizeLabels (order : List String) (labels : Labels) : Labels :=
  order.foldl sanitizeEntry labels

/-- The sequences of keys that Go allows a `range` over `labels` to produce when the body
is `sanitizeEntry`: no key twice, every key only while it is in the map, and every entry
that is in the map at the start (the body removes no entry but the one it is at).  An
entry that the body creates may be produced or skipped. -/
def rangeLegalFrom : List String → Labels → Bool
  | [], _ => true
  | key :: rest, labels =>
    (mapLoad labels key).isSome && rangeLegalFrom rest (sanitizeEntry labels key)

/-- See `rangeLegalFrom`. -/
def rangeLegal (order : List String) (labels : Labels) : Bool :=
  decide order.Nodup && (mapKeys labels).all (fun k => decide (k ∈ order)) &&
    rangeLegalFrom order labels

/-- The variables of `calculateMetrics` that live across the passes of the loop over the
machines.  A sample is kept with the node UID whose label map its `Labels` field shares. -/
structure MetricsState where
  machineSetName : String
  nodeMetrics : List (String × NodeMetric)
  normLatencies : List (String × NodeReadyMetric)
  deriving DecidableEq, Repr

/-- Lines 84-90: the trigger timestamp of a sample. -/
def scaleEventTime (machineSetsToEdit : Plan) (scaleEventEpoch : Int) (machineSetName : String) :
    Except Fault Time :=
  if scaleEventEpoch = 0 then
    match mapLoad machineSetsToEdit machineSetName with
    | none => .error .nilTypeAssertion
    | some msInfo => .ok msInfo.lastUpdatedTime
  else .ok (unixTime scaleEventEpoch)

/-- Lines 102-120: the sample of a machine and its node record. -/
def sampleFor (scaleEventTimestamp : Time) (amiID : String) (info : MachineInfo)
    (nodeMetricValue : NodeMetric) (labels : Labels) : NodeReadyMetric :=
  { scaleEventTimestamp := scaleEventTimestamp
    machineCreationTimestamp := info.creationTimestamp
    machineCreationLatency := milliseconds (timeSub info.creationTimestamp scaleEventTimestamp)
    machineReadyTimestamp := info.readyTimestamp
    machineReadyLatency := milliseconds (timeSub info.readyTimestamp scaleEventTimestamp)
    nodeCreationTimestamp := nodeMetricValue.timestamp
    nodeCreationLatency := milliseconds (timeSub nodeMetricValue.timestamp scaleEventTimestamp)
    nodeReadyTimestamp := nodeMetricValue.nodeReady
    nodeReadyLatency := milliseconds (timeSub nodeMetricValue.nodeReady scaleEventTimestamp)
    metricName := nodeReadyLatencyMeasurement
    uuid := nodeMetricValue.uuid
    amiID := amiID
    jobName := JobName
    name := nodeMetricValue.name
    labels := labels }

/-- Lines 76-121: one pass of the loop over `scaledMachineDetails`. -/
def metricsBody (machineSetsToEdit : Plan) (amiID : String) (scaleEventEpoch : Int)
    (rangeOrder : Labels → List String) (st : MetricsState) (entry : String × MachineInfo) :
    Except Fault MetricsState :=
  let machine := entry.1
  let info := entry.2
  let machineSetName :=
    match ownerGroup machine with
    | some g => g
    | none => st.machineSetName
  match mapLoad st.nodeMetrics info.nodeUID with
  | none => .ok { st with machineSetName := machineSetName }
  | some nodeMetricValue =>
    match scaleEventTime machineSetsToEdit scaleEventEpoch machineSetName with
    | .error f => .error f
    | .ok scaleEventTimestamp =>
      let labels := sanitizeLabels (rangeOrder nodeMetricValue.labels) nodeMetricValue.labels
      let sample := sampleFor scaleEventTimestamp amiID info nodeMetricValue labels
      .ok { machineSetName := machineSetName
            nodeMetrics := mapStore st.nodeMetrics info.nodeUID { nodeMetricValue with labels := labels }
            normLatencies := st.normLatencies ++ [(info.nodeUID, sample)] }

/-- The loop over `scaledMachineDetails`, in the order in which Go ranges over it. -/
def metricsLoop (machineSetsToEdit : Plan) (amiID : String) (scaleEventEpoch : Int)
    (rangeOrder : Labels → List String) :
    List (String × MachineInfo) → MetricsState → Except Fault MetricsState
  | [], st => .ok st
  | entry :: rest, st =>
    match metricsBody machineSetsToEdit amiID scaleEventEpoch rangeOrder st entry with
    | .error f => .error f
    | .ok st1 => metricsLoop machineSetsToEdit amiID scaleEventEpoch rangeOrder rest st1

/-- The `Labels` field of a sample is the label map of its node record, shared and not
copied: it reads as that map is left at the end of the loop. -/
def resolveLabels (nodeMetrics : List (String × NodeMetric)) (s : String × NodeReadyMetric) :
    NodeReadyMetric :=
  match mapLoad nodeMetrics s.1 with
  | some nm => { s.2 with labels := nm.labels }
  | none => s.2

/-- The function `calculateMetrics`, as far as its first result `normLatencies` goes
(lines 73-121); the quantile summaries of lines 122-157 are left out.
`scaledMachineDetails` lists the machine map in the order of iteration and `rangeOrder`
gives the keys that the `range` over a label map produces. -/
def calculateMetrics (machineSetsToEdit : Plan) (scaledMachineDetails : List (String × MachineInfo))
    (nodeMetrics : List (String × NodeMetric)) (amiID : String) (scaleEventEpoch : Int)
    (rangeOrder : Labels → List String) : Except Fault (List NodeReadyMetric) :=
  match metricsLoop machineSetsToEdit amiID scaleEventEpoch rangeOrder scaledMachineDetails
      { machineSetName := "", nodeMetrics := nodeMetrics, normLatencies := [] } with
  | .error f => .error f
  | .ok st => .ok (st.normLatencies.map (resolveLabels st.nodeMetrics))

/-- The machines that have a node record. -/
def matchedMachines (scaledMachineDetails : List (String × MachineInfo))
    (nodeMetrics : List (String × NodeMetric)) : List (String × MachineInfo) :=
  scaledMachineDetails.filter (fun x => (mapLoad nodeMetrics x.2.nodeUID).isSome)

/-- The difference `event - trigger`, cut to the range of a `time.Duration`. -/
def saturated (event trigger : Time) : Int :=
  max minDuration (min maxDuration (event - trigger))

/-- The trigger timestamp of a machine: `scaleEventEpoch` seconds after the Unix epoch
when that is not `0`, else the `LastUpdatedTime` of the plan entry of the group that owns
the machine. -/
def TriggerIs (machineSetsToEdit : Plan) (scaleEventEpoch : Int) (machine : String)
    (trigger : Time) : Prop :=
  if scaleEventEpoch ≠ 0 then trigger = unixTime scaleEventEpoch
  else ∃ g e, ownerGroup machine = some g ∧ mapLoad machineSetsToEdit g = some e ∧
    trigger = e.lastUpdatedTime

/-- Every machine with a node record has a name with a hyphen and a group in the plan. -/
def OwnersInPlan (machineSetsToEdit : Plan) (scaledMachineDetails : List (String × MachineInfo))
    (nodeMetrics : List (String × NodeMetric)) : Prop :=
  ∀ x ∈ scaledMachineDetails, (mapLoad nodeMetrics x.2.nodeUID).isSome →
    ∃ g, ownerGroup x.1 = some g ∧ (mapLoad machineSetsToEdit g).isSome

/-- A node record without its labels. -/
def withoutLabels (nm : NodeMetric) : NodeMetric :=
  { nm with labels := [] }

/-- Two node tables that differ in the label maps only. -/
def SameRecords (t t0 : List (String × NodeMetric)) : Prop :=
  ∀ uid, (mapLoad t uid).map withoutLabels = (mapLoad t0 uid).map withoutLabels

/-- The sample `smp`, kept under `uid`, is the sample of the machine `x`, whatever its
labels. -/
def SampleOf (machineSetsToEdit : Plan) (amiID : String) (scaleEventEpoch : Int)
    (nodeMetrics : List (String × NodeMetric)) (x : String × MachineInfo)
    (smp : NodeReadyMetric) : Prop :=
  ∃ nm trigger labels, mapLoad nodeMetrics x.2.nodeUID = some nm ∧
    TriggerIs machineSetsToEdit scaleEventEpoch x.1 trigger ∧
    smp = sampleFor trigger amiID x.2 (withoutLabels nm) labels

/-- The trigger timestamp that the sample of a machine is measured against:
`time.Unix(scaleEventEpoch, 0)` when `scaleEventEpoch` is not `0`, else the
`LastUpdatedTime` of a plan entry, which is the entry of the group that owns the machine
whenever the name of the machine has a hyphen. -/
def TriggerUsed (machineSetsToEdit : Plan) (scaleEventEpoch : Int) (machine : String)
    (trigger : Time) : Prop :=
  if scaleEventEpoch ≠ 0 then trigger = unixTime scaleEventEpoch
  else ∃ g e, mapLoad machineSetsToEdit g = some e ∧ trigger = e.lastUpdatedTime ∧
    ∀ g', ownerGroup machine = some g' → g' = g

/-- The sample `smp` is the sample emitted for the machine `x`, whatever its labels. -/
def SampleEmitted (machineSetsToEdit : Plan) (amiID : String) (scaleEventEpoch : Int)
    (nodeMetrics : List (String × NodeMetric)) (x : String × MachineInfo)
    (smp : NodeReadyMetric) : Prop :=
  ∃ nm trigger labels, mapLoad nodeMetrics x.2.nodeUID = some nm ∧
    TriggerUsed machineSetsToEdit scaleEventEpoch x.1 trigger ∧
    smp = sampleFor trigger amiID x.2 (withoutLabels nm) labels

/-! ## Lemmas on association lists -/

section GoMapLemmas

variable {κ : Type} {ν : Type} [DecidableEq κ]

theorem mapLoad_mapStore (m : List (κ × ν)) (k k' : κ) (v : ν) :
    mapLoad (mapStore m k v) k' = if k = k' then some v else mapLoad m k' := by
  induction m with
  | nil => simp [mapStore, mapLoad]
  | cons e m ih =>
    obtain ⟨a, b⟩ := e
    simp only [mapStore]
    split_ifs with h1 h2 h2
    · simp [mapLoad, h2]
    · subst h1
      simp [mapLoad, h2]
    · subst h2
      simp [mapLoad, h1, ih]
    · simp only [mapLoad, ih, h2, if_false]

theorem mapLoad_mapDelete (m : List (κ × ν)) (k k' : κ) :
    mapLoad (mapDelete m k) k' = if k = k' then none else mapLoad m k' := by
  induction m with
  | nil => simp [mapDelete, mapLoad]
  | cons e m ih =>
    obtain ⟨a, b⟩ := e
    unfold mapDelete at ih ⊢
    rw [List.filter_cons]
    by_cases h : a = k
    · subst h
      simp only [ne_eq, not_true_eq_false, decide_False, Bool.false_eq_true, if_false, ih]
      by_cases h' : a = k'
      · simp [h']
      · simp [h', mapLoad]
    · simp only [ne_eq, h, not_false_eq_true, decide_True, if_true, mapLoad, ih]
      by_cases h' : k = k'
      · subst h'
        simp [h]
      · simp [h']

theorem mapLoad_eq_none_iff (m : List (κ × ν)) (k : κ) :
    mapLoad m k = none ↔ k ∉ mapKeys m := by
  induction m with
  | nil => simp [mapLoad, mapKeys]
  | cons e m ih =>
    obtain ⟨a, b⟩ := e
    by_cases h : a = k
    · simp [mapLoad, mapKeys, h]
    · have h' : ¬ k = a := fun x => h x.symm
      simp only [mapKeys] at ih
      simp [mapLoad, mapKeys, h, h', ih]

theorem mem_of_mapLoad (m : List (κ × ν)) (k : κ) (v : ν) (h : mapLoad m k = some v) :
    (k, v) ∈ m := by
  induction m with
  | nil => simp [mapLoad] at h
  | cons e m ih =>
    obtain ⟨a, b⟩ := e
    by_cases h' : a = k
    · simp [mapLoad, h'] at h
      simp [h, h']
    · simp [mapLoad, h'] at h
      exact List.mem_cons_of_mem _ (ih h)

theorem mapLoad_of_mem (m : List (κ × ν)) (hm : (mapKeys m).Nodup) (k : κ) (v : ν)
    (h : (k, v) ∈ m) : mapLoad m k = some v := by
  induction m with
  | nil => simp at h
  | cons e m ih =>
    obtain ⟨a, b⟩ := e
    simp only [mapKeys, List.map_cons, List.nodup_cons] at hm
    rcases List.mem_cons.1 h with h1 | h1
    · injection h1 with h2 h3
      subst h2; subst h3
      simp [mapLoad]
    · have hne : a ≠ k := by
        intro hak
        subst hak
        exact hm.1 (List.mem_map_of_mem Prod.fst h1)
      simp only [mapLoad, hne, if_false]
      exact ih hm.2 h1

theorem mapKeys_mapStore (m : List (κ × ν)) (k : κ) (v : ν) :
    mapKeys (mapStore m k v) = if k ∈ mapKeys m then mapKeys m else mapKeys m ++ [k] := by
  induction m with
  | nil => simp [mapStore, mapKeys]
  | cons e m ih =>
    obtain ⟨a, b⟩ := e
    simp only [mapKeys] at ih
    by_cases h : a = k
    · simp [mapStore, mapKeys, h]
    · have h' : ¬ k = a := fun x => h x.symm
      by_cases hk : k ∈ List.map Prod.fst m
      · simp [mapStore, mapKeys, h, h', hk, ih]
      · simp [mapStore, mapKeys, h, h', hk, ih]

theorem nodup_mapKeys_mapStore (m : List (κ × ν)) (k : κ) (v : ν) (hm : (mapKeys m).Nodup) :
    (mapKeys (mapStore m k v)).Nodup := by
  rw [mapKeys_mapStore]
  by_cases hk : k ∈ mapKeys m
  · simpa [hk] using hm
  · simp only [hk, if_false]
    exact List.nodup_append.2 ⟨hm, List.nodup_singleton k, by
      intro x hx hx'
      simp at hx'
      subst hx'
      exact hk hx⟩

theorem mapStore_mapStore (m : List (κ × ν)) (k : κ) (v v' : ν) :
    mapStore (mapStore m k v) k v' = mapStore m k v' := by
  induction m with
  | nil => simp [mapStore]
  | cons e m ih =>
    obtain ⟨a, b⟩ := e
    by_cases h : a = k <;> simp [mapStore, h, ih]

end GoMapLemmas

theorem wrapInt_eq (x : Int) (h1 : minInt64 ≤ x) (h2 : x ≤ maxInt64) : wrapInt x = x := by
  unfold wrapInt
  unfold minInt64 at h1
  unfold maxInt64 at h2
  omega

/-! ## The plan update of one increment -/

theorem bumpPlan_eq (value : Int) (hw : wrapInt (value + 1) = value + 1) (plan : Plan)
    (machineSet : String) :
    bumpPlan value plan machineSet = .ok (bumped value plan machineSet) := by
  unfold bumpPlan bumped bumpedInfo
  rw [hw]
  cases h : mapLoad plan machineSet with
  | none => simp [mapLoad_mapStore, mapStore_mapStore]
  | some e => simp [h]

theorem mapLoad_bumped (value : Int) (plan : Plan) (g g' : String) :
    mapLoad (bumped value plan g) g' =
      if g = g' then some (bumpedInfo value (mapLoad plan g)) else mapLoad plan g' := by
  unfold bumped
  rw [mapLoad_mapStore]

theorem bumpedInfo_idem (value : Int) (old : Option MachineSetInfo) :
    bumpedInfo value (some (bumpedInfo value old)) = bumpedInfo value old := by
  cases old <;> simp [bumpedInfo]

theorem mapLoad_foldl_bumped (value : Int) (l : List String) :
    ∀ (plan : Plan) (g : String),
      mapLoad (l.foldl (bumped value) plan) g =
        if g ∈ l then some (bumpedInfo value (mapLoad plan g)) else mapLoad plan g := by
  induction l with
  | nil => intro plan g; simp
  | cons a l ih =>
    intro plan g
    rw [List.foldl_cons, ih, mapLoad_bumped]
    by_cases hag : a = g
    · subst hag
      by_cases hl : a ∈ l
      · simp [hl, bumpedInfo_idem]
      · simp [hl]
    · have hga : ¬ g = a := fun x => hag x.symm
      by_cases hl : g ∈ l
      · simp [hl, hag, hga]
      · simp [hl, hag, hga]

theorem nodup_mapKeys_foldl_bumped (value : Int) (l : List String) :
    ∀ (plan : Plan), (mapKeys plan).Nodup → (mapKeys (l.foldl (bumped value) plan)).Nodup := by
  induction l with
  | nil => intro plan h; simpa using h
  | cons a l ih =>
    intro plan h
    rw [List.foldl_cons]
    exact ih _ (nodup_mapKeys_mapStore _ _ _ h)

theorem planGrowth_mapStore (plan : Plan) (g : String) (e : MachineSetInfo) :
    planGrowth (mapStore plan g e) =
      planGrowth plan + (e.currentReplicas - e.prevReplicas) -
        (match mapLoad plan g with
          | some o => o.currentReplicas - o.prevReplicas
          | none => 0) := by
  induction plan with
  | nil => simp [mapStore, planGrowth, mapLoad]
  | cons x plan ih =>
    obtain ⟨a, b⟩ := x
    unfold planGrowth at ih ⊢
    by_cases h : a = g
    · subst h
      simp only [mapStore, mapLoad, if_true, List.map_cons, List.sum_cons]
      ring
    · simp only [mapStore, mapLoad, h, if_false, List.map_cons, List.sum_cons, ih]
      ring

theorem planGrowth_bumped (value : Int) (plan : Plan) (g : String)
    (h : ∀ e, mapLoad plan g = some e → e.currentReplicas = value) :
    planGrowth (bumped value plan g) = planGrowth plan + 1 := by
  unfold bumped
  rw [planGrowth_mapStore]
  cases hg : mapLoad plan g with
  | none => simp [bumpedInfo]
  | some e =>
    have := h e hg
    obtain ⟨t, p, c⟩ := e
    simp only at this
    subst this
    simp only [bumpedInfo]
    ring

theorem planGrowth_foldl_bumped (value : Int) (l : List String) :
    ∀ (plan : Plan), l.Nodup →
      (∀ g ∈ l, ∀ e, mapLoad plan g = some e → e.currentReplicas = value) →
      planGrowth (l.foldl (bumped value) plan) = planGrowth plan + l.length := by
  induction l with
  | nil => intro plan _ _; simp
  | cons a l ih =>
    intro plan hnd h
    rw [List.foldl_cons, ih]
    · rw [planGrowth_bumped value plan a (h a (List.mem_cons_self _ _))]
      simp only [List.length_cons, Nat.cast_add, Nat.cast_one]
      ring
    · exact (List.nodup_cons.1 hnd).2
    · intro g hg e he
      have hne : a ≠ g := by
        intro hag
        subst hag
        exact (List.nodup_cons.1 hnd).1 hg
      rw [mapLoad_bumped] at he
      simp only [hne, if_false] at he
      exact h g (List.mem_cons_of_mem _ hg) e he

/-! ## The inner loop in closed form -/

theorem rangeMachineSets_spec (value : Int) (hw : wrapInt (value + 1) = value + 1) :
    ∀ (b : List String) (j i : Nat) (s : AdjustState),
      j ≤ b.length → (j : Int) ≤ s.desired → (j = b.length ∨ s.desired = j) →
      ∃ s', rangeMachineSets value b i s = .ok s' ∧
        s'.plan = (b.take j).foldl (bumped value) s.plan ∧
        s'.desired = s.desired - j ∧
        s'.keys = s.keys ∧ s'.index = s.index ∧
        (j = 0 → s' = s) ∧
        (0 < j → s'.lastIndex = i + j - 1 ∧ s'.modified = true ∧
          ∀ k, mapLoad s'.replicas k =
            if k = value + 1 then
              some ((mapLoad s.replicas (value + 1)).getD [] ++ b.take j)
            else mapLoad s.replicas k) := by
  intro b
  induction b with
  | nil =>
    intro j i s hj _ _
    have hj0 : j = 0 := by simpa using hj
    subst hj0
    exact ⟨s, by simp [rangeMachineSets], by simp, by simp, rfl, rfl, fun _ => rfl,
      fun h => absurd h (lt_irrefl 0)⟩
  | cons g rest ih =>
    intro j i s hj hd hor
    cases j with
    | zero =>
      have hd0 : s.desired = 0 := by
        rcases hor with h | h
        · simp at h
        · simpa using h
      refine ⟨s, ?_, by simp, by simp, rfl, rfl, fun _ => rfl, fun h => absurd h (lt_irrefl 0)⟩
      simp [rangeMachineSets, hd0]
    | succ j' =>
      have hpos : 0 < s.desired := by
        have : (0 : Int) < ((j' + 1 : Nat) : Int) := by exact_mod_cast Nat.succ_pos j'
        omega
      have hj' : j' ≤ rest.length := by simpa using hj
      obtain ⟨s', hrun, hplan, hdes, hkeys, hidx, hzero, hposj⟩ :=
        ih j' (i + 1)
          { s with
            replicas := mapStore s.replicas (value + 1)
              ((mapLoad s.replicas (value + 1)).getD [] ++ [g])
            plan := bumped value s.plan g
            lastIndex := i
            desired := s.desired - 1
            modified := true }
          hj' (by push_cast at hd ⊢; omega)
          (by
            rcases hor with h | h
            · left; simpa using h
            · right; push_cast at h ⊢; omega)
      refine ⟨s', ?_, ?_, ?_, ?_, ?_, ?_, ?_⟩
      · simp only [rangeMachineSets, hpos, if_true, bumpPlan_eq value hw, hw]
        exact hrun
      · simpa using hplan
      · rw [hdes]; push_cast; ring
      · simpa using hkeys
      · simpa using hidx
      · intro h; exact absurd h (Nat.succ_ne_zero j')
      · intro _
        rcases Nat.eq_zero_or_pos j' with h0 | hp
        · subst h0
          have := hzero rfl
          subst this
          refine ⟨by simp, by simp, ?_⟩
          intro k
          simp only [mapLoad_mapStore]
          by_cases hk : k = value + 1
          · subst hk; simp
          · have hk' : ¬ value + 1 = k := fun x => hk x.symm
            simp [hk, hk']
        · obtain ⟨hl, hm, hr⟩ := hposj hp
          refine ⟨by omega, hm, ?_⟩
          intro k
          rw [hr k]
          by_cases hk : k = value + 1
          · subst hk
            simp [mapLoad_mapStore]
          · have hk' : ¬ value + 1 = k := fun x => hk x.symm
            simp [hk, hk', mapLoad_mapStore]

/-! ## The loop invariant of adjustMachineSets -/

theorem mem_lower (orig : SizeMap) (v0 : Int) (g : String) :
    ∀ n : Nat, g ∈ lower orig v0 n ↔ ∃ i : Nat, i ≤ n ∧ g ∈ bucketOf orig (v0 + (i : Int)) := by
  intro n
  induction n with
  | zero =>
    constructor
    · intro h
      exact ⟨0, le_refl 0, by simpa [lower] using h⟩
    · rintro ⟨i, hi, h⟩
      have : i = 0 := by omega
      subst this
      simpa [lower] using h
  | succ n ih =>
    simp only [lower, List.mem_append, ih]
    constructor
    · rintro (h | ⟨i, hi, h⟩)
      · exact ⟨n + 1, le_refl _, h⟩
      · exact ⟨i, by omega, h⟩
    · rintro ⟨i, hi, h⟩
      rcases Nat.lt_or_ge i (n + 1) with hlt | hge
      · exact Or.inr ⟨i, by omega, h⟩
      · have : i = n + 1 := by omega
        subst this
        exact Or.inl h

theorem lower_nodup (orig : SizeMap) (v0 : Int) (ho : OrigOK orig v0) :
    ∀ n : Nat, (lower orig v0 n).Nodup := by
  intro n
  induction n with
  | zero => simpa [lower] using ho.nodup v0
  | succ n ih =>
    simp only [lower]
    refine List.nodup_append.2 ⟨ho.nodup _, ih, ?_⟩
    intro g hg hg'
    obtain ⟨i, hi, hgi⟩ := (mem_lower orig v0 g n).1 hg'
    have := ho.disjoint _ _ g hg hgi
    push_cast at this
    omega

theorem lower_ne_nil (orig : SizeMap) (v0 : Int) (ho : OrigOK orig v0) :
    ∀ n : Nat, lower orig v0 n ≠ [] := by
  intro n
  cases hb : bucketOf orig v0 with
  | nil => exact absurd hb ho.first
  | cons g rest =>
    have hg : g ∈ lower orig v0 n :=
      (mem_lower orig v0 g n).2 ⟨0, Nat.zero_le n, by simp [hb]⟩
    intro h
    rw [h] at hg
    simp at hg

theorem bucketOf_eq_nil_of_lt (orig : SizeMap) (v0 : Int) (ho : OrigOK orig v0) (k : Int)
    (hk : k < v0) : bucketOf orig k = [] := by
  simp [bucketOf, ho.least k hk]

/-- The plan after the first `j` groups of the bucket of pass `n` were incremented. -/
theorem plan_after_range (orig : SizeMap) (d0 v0 : Int) (n : Nat) (s : AdjustState)
    (ho : OrigOK orig v0) (h : LoopInv orig d0 v0 n s) (j : Nat)
    (hj : j ≤ (lower orig v0 n).length) :
    let plan := ((lower orig v0 n).take j).foldl (bumped (v0 + (n : Int))) s.plan
    (mapKeys plan).Nodup ∧ planGrowth plan = planGrowth s.plan + (j : Int) ∧
    (∀ g e, mapLoad plan g = some e →
      (g ∈ (lower orig v0 n).take j → e.currentReplicas = v0 + (n : Int) + 1) ∧
      (g ∉ (lower orig v0 n).take j → e.currentReplicas = v0 + (n : Int)) ∧
      e.prevReplicas < e.currentReplicas ∧ v0 ≤ e.prevReplicas ∧
      e.prevReplicas ≤ v0 + (n : Int) ∧ g ∈ bucketOf orig e.prevReplicas) ∧
    (∀ g, mapLoad plan g = none → g ∉ (lower orig v0 n).take j ∧ mapLoad s.plan g = none) := by
  intro plan
  have hsub : ∀ g, g ∈ (lower orig v0 n).take j → g ∈ lower orig v0 n :=
    fun g hg => List.mem_of_mem_take hg
  have hnd : ((lower orig v0 n).take j).Nodup :=
    (lower_nodup orig v0 ho n).sublist (List.take_sublist _ _)
  refine ⟨nodup_mapKeys_foldl_bumped _ _ _ h.nodup, ?_, ?_, ?_⟩
  · have := planGrowth_foldl_bumped (v0 + (n : Int)) ((lower orig v0 n).take j) s.plan hnd
      (fun g _ e he => (h.entries g e he).1)
    rw [this, List.length_take, Nat.min_eq_left hj]
  · intro g e he
    simp only [plan, mapLoad_foldl_bumped] at he
    by_cases hg : g ∈ (lower orig v0 n).take j
    · simp only [hg, if_true, Option.some.injEq] at he
      cases hold : mapLoad s.plan g with
      | some e0 =>
        obtain ⟨h1, h2, h3, h4⟩ := h.entries g e0 hold
        rw [hold] at he
        subst he
        simp only [bumpedInfo]
        exact ⟨fun _ => trivial, fun hn => absurd hg hn, by omega, h2, by omega, h4⟩
      | none =>
        rw [hold] at he
        subst he
        simp only [bumpedInfo]
        refine ⟨fun _ => trivial, fun hn => absurd hg hn, by omega, by omega, le_refl _, ?_⟩
        obtain ⟨i, hi, hgi⟩ := (mem_lower orig v0 g n).1 (hsub g hg)
        rcases Nat.lt_or_ge i n with hlt | hge
        · exact absurd hold (h.covered _ g hgi (by omega))
        · have : i = n := by omega
          subst this
          exact hgi
    · simp only [hg, if_false] at he
      obtain ⟨h1, h2, h3, h4⟩ := h.entries g e he
      exact ⟨fun hn => absurd hn hg, fun _ => h1, by omega, h2, by omega, h4⟩
  · intro g hg
    simp only [plan, mapLoad_foldl_bumped] at hg
    by_cases hmem : g ∈ (lower orig v0 n).take j
    · simp [hmem] at hg
    · simp only [hmem, if_false] at hg
      exact ⟨hmem, hg⟩

/-! ## One pass of the outer loop -/

theorem processBucket_spec (value : Int) (hw : wrapInt (value + 1) = value + 1)
    (b : List String) (s : AdjustState) (j : Nat)
    (hb : mapLoad s.replicas value = some b) (hj1 : 0 < j) (hj : j ≤ b.length)
    (hd : (j : Int) ≤ s.desired) (hor : j = b.length ∨ s.desired = j) :
    ∃ s2, processBucket value s = .ok s2 ∧
      s2.plan = (b.take j).foldl (bumped value) s.plan ∧
      s2.desired = s.desired - j ∧ s2.keys = s.keys ∧ s2.index = s.index ∧
      s2.modified = true ∧
      (j = b.length → ∀ k, mapLoad s2.replicas k =
        if k = value then none
        else if k = value + 1 then some ((mapLoad s.replicas (value + 1)).getD [] ++ b)
        else mapLoad s.replicas k) := by
  obtain ⟨s1, hrun, hplan, hdes, hkeys, hidx, _, hpos⟩ :=
    rangeMachineSets_spec value hw b j 0 s hj hd hor
  obtain ⟨hlast, hmod, hrep⟩ := hpos hj1
  simp only [processBucket, hb, hrun]
  by_cases hfull : j = b.length
  · have hc : (s1.lastIndex : Int) = (b.length : Int) - 1 := by
      rw [hlast]; subst hfull; omega
    refine ⟨{ s1 with replicas := mapDelete s1.replicas value }, by simp [hc], hplan, hdes,
      hkeys, hidx, hmod, ?_⟩
    intro _ k
    simp only [mapLoad_mapDelete, hrep]
    by_cases hk : k = value
    · subst hk; simp
    · have hk' : ¬ value = k := fun x => hk x.symm
      simp only [hk, hk', if_false]
      subst hfull
      simp
  · have hc : ¬ (s1.lastIndex : Int) = (b.length : Int) - 1 := by
      rw [hlast]; omega
    have hc2 : s1.lastIndex + 1 ≤ b.length := by rw [hlast]; omega
    exact ⟨{ s1 with replicas := mapStore s1.replicas value (b.drop (s1.lastIndex + 1)) },
      by simp [hc, hc2], hplan, hdes, hkeys, hidx, hmod, fun h => absurd h hfull⟩

theorem insertCondition_spec (value : Int) (hw : wrapInt (value + 1) = value + 1)
    (s : AdjustState)
    (hk : s.keys[s.index]? = some value) (hm : s.modified = true) :
    ∃ c, insertCondition value s = .ok c ∧
      (if c then s.keys.take (s.index + 1) ++ ([value + 1] ++ s.keys.drop (s.index + 1))
        else s.keys)[s.index + 1]? = some (value + 1) := by
  have hlt : s.index < s.keys.length := by
    by_contra hcon
    rw [List.getElem?_eq_none (by omega)] at hk
    simp at hk
  have hins : (s.keys.take (s.index + 1) ++
      ([value + 1] ++ s.keys.drop (s.index + 1)))[s.index + 1]? = some (value + 1) := by
    have hlen : (s.keys.take (s.index + 1)).length = s.index + 1 := by
      rw [List.length_take]; omega
    rw [List.getElem?_append_right (by omega), hlen]
    simp
  unfold insertCondition
  rw [hw]
  by_cases hlast : (s.index : Int) = (s.keys.length : Int) - 1
  · exact ⟨true, by simp [hm, hlast], by simpa using hins⟩
  · have hlt2 : s.index + 1 < s.keys.length := by omega
    obtain ⟨next, hnext⟩ : ∃ next, s.keys[s.index + 1]? = some next :=
      ⟨s.keys[s.index + 1], List.getElem?_eq_getElem hlt2⟩
    by_cases hne : value + 1 = next
    · refine ⟨false, by simp [hm, hlast, hnext, hne], ?_⟩
      simp [hnext, hne]
    · exact ⟨true, by simp [hm, hlast, hnext, hne], by simpa using hins⟩

theorem outerBody_spec (orig : SizeMap) (d0 v0 : Int) (n : Nat) (s : AdjustState)
    (ho : OrigOK orig v0) (h : LoopInv orig d0 v0 n s) :
    ∃ s' c, outerBody s = .ok (s', c) ∧
      ((c = false ∧ Final orig d0 (v0 + (n : Int)) s'.plan) ∨
        (c = true ∧ LoopInv orig d0 v0 (n + 1) s' ∧ s'.desired < s.desired)) := by
  have hb : mapLoad s.replicas (v0 + (n : Int)) = some (lower orig v0 n) := by
    rw [h.replicas]; simp
  have hlen : 0 < (lower orig v0 n).length :=
    List.length_pos.2 (lower_ne_nil orig v0 ho n)
  have hdes := h.desired
  have hw : wrapInt (v0 + (n : Int) + 1) = v0 + (n : Int) + 1 := by
    have h1 := ho.inRange
    have h2 := h.room
    unfold minInt64 at h1
    unfold maxInt64 at h2
    exact wrapInt_eq _ (by unfold minInt64; omega) (by unfold maxInt64; omega)
  obtain ⟨j, hj1, hj, hd, hor⟩ : ∃ j : Nat, 0 < j ∧ j ≤ (lower orig v0 n).length ∧
      (j : Int) ≤ s.desired ∧ (j = (lower orig v0 n).length ∨ s.desired = j) := by
    by_cases hc : ((lower orig v0 n).length : Int) ≤ s.desired
    · exact ⟨_, hlen, le_refl _, hc, Or.inl rfl⟩
    · refine ⟨s.desired.toNat, by omega, by omega, by omega, Or.inr (by omega)⟩
  obtain ⟨s2, hproc, hplan, hdes2, hkeys, hidx, hmod, hrep⟩ :=
    processBucket_spec (v0 + (n : Int)) hw (lower orig v0 n) { s with modified := false } j
      hb hj1 hj hd hor
  simp only at hplan hdes2 hkeys hidx hrep
  obtain ⟨c, hcond, hnext⟩ :=
    insertCondition_spec (v0 + (n : Int)) hw s2 (by rw [hkeys, hidx]; exact h.key) hmod
  obtain ⟨hp1, hp2, hp3, hp4⟩ := plan_after_range orig d0 v0 n s ho h j hj
  rw [← hplan] at hp1 hp2 hp3 hp4
  have hgrow := h.growth
  by_cases hstop : s2.desired ≤ 0
  · refine ⟨_, false, by simp only [outerBody, h.key, hproc, hcond, hstop, if_true, hw]; rfl,
      Or.inl ⟨rfl, ?_⟩⟩
    refine ⟨hp1, by simp only; omega, ?_, ?_⟩
    · intro g e he
      obtain ⟨a1, a2, a3, _, _, a6⟩ := hp3 g e he
      refine ⟨?_, a3, a6⟩
      by_cases hg : g ∈ (lower orig v0 n).take j
      · exact Or.inr (a1 hg)
      · exact Or.inl (a2 hg)
    · intro k g hg hnone
      by_contra hk
      exact h.covered k g hg (by omega) (hp4 g hnone).2
  · have hfull : j = (lower orig v0 n).length := by
      rcases hor with h1 | h1
      · exact h1
      · omega
    have htake : (lower orig v0 n).take j = lower orig v0 n := by
      rw [hfull]; exact List.take_length _
    rw [htake] at hp3 hp4
    refine ⟨_, true, by simp only [outerBody, h.key, hproc, hcond, hstop, if_false, hw]; rfl,
      Or.inr ⟨rfl, ?_, by simp only; omega⟩⟩
    refine ⟨?_, ?_, by simp only; omega, hp1, ?_, ?_, by simp only; omega, ?_⟩
    · simp only
      rw [hidx] at hnext ⊢
      rw [hnext]
      push_cast
      ring_nf
    · intro k
      simp only
      rw [hrep hfull k, h.replicas, h.replicas]
      simp only [lower, bucketOf]
      push_cast
      by_cases hk1 : k = v0 + (n : Int)
      · subst hk1
        simp
      · by_cases hk2 : k = v0 + (n : Int) + 1
        · subst hk2
          have e1 : ¬ (v0 + (n : Int) + 1 < v0 + (n : Int)) := by omega
          have e2 : ¬ (v0 + (n : Int) + 1 < v0 + ((n : Int) + 1)) := by omega
          have e3 : v0 + (n : Int) + 1 = v0 + ((n : Int) + 1) := by omega
          simp [e1, e2, e3]
        · by_cases hk3 : k < v0 + (n : Int)
          · have e2 : k < v0 + ((n : Int) + 1) := by omega
            simp [hk1, hk2, hk3, e2]
          · have e2 : ¬ k < v0 + ((n : Int) + 1) := by omega
            have e3 : ¬ k = v0 + ((n : Int) + 1) := by omega
            simp [hk1, hk2, hk3, e2, e3]
    · intro g e he
      obtain ⟨a1, a2, a3, a4, a5, a6⟩ := hp3 g e he
      have hg : g ∈ lower orig v0 n := by
        by_contra hg
        have hcur := a2 hg
        have hlt : e.prevReplicas < v0 + (n : Int) := by omega
        obtain ⟨i, hi⟩ : ∃ i : Nat, e.prevReplicas = v0 + (i : Int) :=
          ⟨(e.prevReplicas - v0).toNat, by omega⟩
        exact hg ((mem_lower orig v0 g n).2 ⟨i, by omega, by rw [← hi]; exact a6⟩)
      have hcur := a1 hg
      push_cast
      exact ⟨by omega, a4, by omega, a6⟩
    · intro k g hg hk
      push_cast at hk
      intro hnone
      obtain ⟨b1, b2⟩ := hp4 g hnone
      rcases lt_or_ge k (v0 + (n : Int)) with hlt | hge
      · exact h.covered k g hg hlt b2
      · have hkeq : k = v0 + (n : Int) := by omega
        subst hkeq
        exact b1 ((mem_lower orig v0 g n).2 ⟨n, le_refl n, hg⟩)
    · have hroom := h.room
      simp only
      push_cast
      omega

/-! ## The whole loop -/

theorem outerLoop_spec (orig : SizeMap) (d0 v0 : Int) (ho : OrigOK orig v0) :
    ∀ (fuel n : Nat) (s : AdjustState), LoopInv orig d0 v0 n s → s.desired ≤ (fuel : Int) →
      ∃ s' v, outerLoop fuel s = .ok s' ∧ Final orig d0 v s'.plan := by
  intro fuel
  induction fuel with
  | zero =>
    intro n s h hf
    have := h.desired
    simp at hf
    omega
  | succ fuel ih =>
    intro n s h hf
    have hlt : s.index < s.keys.length := by
      by_contra hcon
      have hk := h.key
      rw [List.getElem?_eq_none (by omega)] at hk
      simp at hk
    obtain ⟨s1, c, hbody, hcase⟩ := outerBody_spec orig d0 v0 n s ho h
    rcases hcase with ⟨hc, hfin⟩ | ⟨hc, hinv, hless⟩
    · subst hc
      exact ⟨s1, _, by simp [outerLoop, hlt, hbody], hfin⟩
    · subst hc
      obtain ⟨s', v, hrun, hfin⟩ := ih (n + 1) s1 hinv (by push_cast at hf; omega)
      exact ⟨s', v, by simp [outerLoop, hlt, hbody, hrun], hfin⟩

theorem mem_bucketOf (m : SizeMap) (k : Int) (g : String) (h : g ∈ bucketOf m k) :
    ∃ b, mapLoad m k = some b ∧ g ∈ b := by
  unfold bucketOf at h
  cases hb : mapLoad m k with
  | none => simp [hb] at h
  | some b => exact ⟨b, rfl, by simpa [hb] using h⟩

theorem wellFormed_disjoint (m : SizeMap) (hwf : WellFormed m) (k1 k2 : Int) (g : String)
    (h1 : g ∈ bucketOf m k1) (h2 : g ∈ bucketOf m k2) : k1 = k2 := by
  obtain ⟨b1, hb1, hg1⟩ := mem_bucketOf m k1 g h1
  obtain ⟨b2, hb2, hg2⟩ := mem_bucketOf m k2 g h2
  have hm1 := mem_of_mapLoad m k1 b1 hb1
  have hm2 := mem_of_mapLoad m k2 b2 hb2
  have hpw := (List.nodup_flatMap.1 hwf.2.2).2
  by_contra hne
  have hne' : (k1, b1) ≠ (k2, b2) := fun h => hne (congrArg Prod.fst h)
  have hsymm : Symmetric (fun a b : Int × List String => List.Disjoint a.2 b.2) :=
    fun _ _ h => h.symm
  exact (List.Pairwise.forall hsymm hpw hm1 hm2 hne') hg1 hg2

theorem wellFormed_bucket_nodup (m : SizeMap) (hwf : WellFormed m) (k : Int) :
    (bucketOf m k).Nodup := by
  unfold bucketOf
  cases hb : mapLoad m k with
  | none => simp
  | some b => exact (List.nodup_flatMap.1 hwf.2.2).1 _ (mem_of_mapLoad m k b hb)

theorem origOK_of_wellFormed (m : SizeMap) (d : Int) (hwf : WellFormed m) (hne : m ≠ [])
    (hr : InRange m d) :
    ∃ v0, ((mapKeys m).insertionSort (fun a b => a ≤ b))[0]? = some v0 ∧ OrigOK m v0 ∧
      v0 + d ≤ maxInt64 := by
  have hperm := List.perm_insertionSort (fun a b : Int => a ≤ b) (mapKeys m)
  have hsorted := List.sorted_insertionSort (fun a b : Int => a ≤ b) (mapKeys m)
  cases hs : (mapKeys m).insertionSort (fun a b => a ≤ b) with
  | nil =>
    rw [hs] at hperm
    have : mapKeys m = [] := List.Perm.eq_nil hperm.symm
    cases m with
    | nil => exact absurd rfl hne
    | cons e m => simp [mapKeys] at this
  | cons v0 rest =>
    rw [hs] at hperm hsorted
    have hv0 : v0 ∈ mapKeys m := hperm.subset (List.mem_cons_self _ _)
    have hleast : ∀ k' ∈ mapKeys m, v0 ≤ k' := by
      intro k' hk'
      have hmem' : k' ∈ v0 :: rest := hperm.symm.subset hk'
      rcases List.mem_cons.1 hmem' with h1 | h1
      · omega
      · exact List.rel_of_sorted_cons hsorted k' h1
    refine ⟨v0, by simp, ⟨(hr.1 v0 hv0).1, ?_, ?_, wellFormed_disjoint m hwf,
      wellFormed_bucket_nodup m hwf⟩, hr.2 v0 hv0 hleast⟩
    · intro k hk
      rw [mapLoad_eq_none_iff]
      intro hmem
      have hmem' : k ∈ v0 :: rest := hperm.symm.subset hmem
      rcases List.mem_cons.1 hmem' with h1 | h1
      · omega
      · have := List.rel_of_sorted_cons hsorted k h1
        omega
    · have hv0 : v0 ∈ mapKeys m := hperm.subset (List.mem_cons_self _ _)
      cases hb : mapLoad m v0 with
      | none => exact absurd hv0 ((mapLoad_eq_none_iff m v0).1 hb)
      | some b =>
        have := hwf.2.1 _ (mem_of_mapLoad m v0 b hb)
        simpa [bucketOf, hb] using this

theorem loopInv_init (m : SizeMap) (d v0 : Int) (ho : OrigOK m v0) (hd : 1 ≤ d)
    (hk : ((mapKeys m).insertionSort (fun a b => a ≤ b))[0]? = some v0)
    (hroom : v0 + d ≤ maxInt64) :
    LoopInv m d v0 0 (initState m d) := by
  refine ⟨by simpa [initState] using hk, ?_, by simp [initState]; omega, by simp [initState, mapKeys],
    ?_, ?_, by simp [initState, planGrowth], by simpa [initState] using hroom⟩
  · intro k
    simp only [initState, Nat.cast_zero, add_zero, lower]
    by_cases h1 : k < v0
    · simp [h1, ho.least k h1]
    · by_cases h2 : k = v0
      · subst h2
        have hf := ho.first
        unfold bucketOf at hf ⊢
        cases hb : mapLoad m k with
        | none => simp [hb] at hf
        | some b => simp
      · simp [h1, h2]
  · intro g e he
    simp [initState, mapLoad] at he
  · intro k g hg hlt
    have := bucketOf_eq_nil_of_lt m v0 ho k (by simpa using hlt)
    rw [this] at hg
    simp at hg

/-- On a well-formed, non-empty size map and a positive request, both within the range
of the Go `int`, `adjustMachineSets` returns, and the plan it returns is the `Final` one
of some size `v`. -/
theorem adjustMachineSets_final (m : SizeMap) (d : Int) (hwf : WellFormed m) (hne : m ≠ [])
    (hd : 1 ≤ d) (hr : InRange m d) :
    ∃ plan m' v, adjustMachineSets m d = .ok (plan, m') ∧ Final m d v plan := by
  obtain ⟨v0, hk, ho, hroom⟩ := origOK_of_wellFormed m d hwf hne hr
  obtain ⟨s', v, hrun, hfin⟩ :=
    outerLoop_spec m d v0 ho (d.toNat + 1) 0 (initState m d)
      (loopInv_init m d v0 ho hd hk hroom)
      (by simp only [initState]; push_cast; omega)
  exact ⟨s'.plan, s'.replicas, v, by simp [adjustMachineSets, hrun], hfin⟩

/-! ## waitForMachineSets: the plan after the Range call -/

theorem mapStore_append_cons (pre post : Plan) (g : String) (e e' : MachineSetInfo)
    (hg : g ∉ mapKeys pre) :
    mapStore (pre ++ (g, e) :: post) g e' = pre ++ (g, e') :: post := by
  induction pre with
  | nil => simp [mapStore]
  | cons x pre ih =>
    obtain ⟨a, b⟩ := x
    simp only [mapKeys, List.map_cons, List.mem_cons, not_or] at hg
    have hne : ¬ a = g := fun h => hg.1 h.symm
    have ih' := ih (by simpa [mapKeys] using hg.2)
    show mapStore ((a, b) :: (pre ++ (g, e) :: post)) g e' = (a, b) :: (pre ++ (g, e') :: post)
    simp only [mapStore, hne, if_false, ih']

theorem mapKeys_map_stamped (triggerTime : Time) (plan : Plan) :
    mapKeys (plan.map (stamped triggerTime)) = mapKeys plan := by
  simp [mapKeys, stamped, Function.comp_def]

theorem foldl_rangeCallback (waitForMachineSet : String → Int → Bool) (triggerTime : Time) :
    ∀ (rest pre : Plan) (events : List WaitEvent), (mapKeys (pre ++ rest)).Nodup →
      (rest.foldl (rangeCallback waitForMachineSet triggerTime)
        (pre.map (stamped triggerTime) ++ rest, events)).1 =
        (pre ++ rest).map (stamped triggerTime) := by
  intro rest
  induction rest with
  | nil => intro pre events _; simp
  | cons x rest ih =>
    intro pre events hnd
    obtain ⟨g, e⟩ := x
    have hg : g ∉ mapKeys (pre.map (stamped triggerTime)) := by
      rw [mapKeys_map_stamped]
      simp only [mapKeys, List.map_append, List.map_cons] at hnd
      have := (List.nodup_append.1 hnd).2.2
      intro hmem
      exact this hmem (List.mem_cons_self _ _)
    have hstep : rangeCallback waitForMachineSet triggerTime
        (pre.map (stamped triggerTime) ++ (g, e) :: rest, events) (g, e) =
        ((pre ++ [(g, e)]).map (stamped triggerTime) ++ rest,
          events ++ [WaitEvent.waitStarted g (toInt32 e.currentReplicas)] ++
            (if waitForMachineSet g (toInt32 e.currentReplicas)
              then [WaitEvent.waitFailureLogged g] else [])) := by
      simp only [rangeCallback]
      rw [mapStore_append_cons _ _ _ _ _ hg]
      simp [stamped]
    rw [List.foldl_cons, hstep, ih (pre ++ [(g, e)]) _ (by simpa using hnd)]
    simp

theorem waitForMachineSets_plan (waitForMachineSet : String → Int → Bool) (waitForNodes : Bool)
    (plan : Plan) (triggerTime : Time) (hnd : (mapKeys plan).Nodup) :
    (waitForMachineSets waitForMachineSet waitForNodes plan triggerTime).plan =
      plan.map (stamped triggerTime) := by
  have := foldl_rangeCallback waitForMachineSet triggerTime plan [] [] (by simpa using hnd)
  simpa [waitForMachineSets] using this

theorem mapLoad_map_stamped (triggerTime : Time) (plan : Plan) (g : String) :
    mapLoad (plan.map (stamped triggerTime)) g =
      (mapLoad plan g).map (fun e => { e with lastUpdatedTime := triggerTime }) := by
  induction plan with
  | nil => simp [mapLoad]
  | cons x plan ih =>
    obtain ⟨a, b⟩ := x
    by_cases h : a = g
    · simp [mapLoad, stamped, h]
    · simp only [List.map_cons, mapLoad, stamped, h, if_false]
      exact ih

/-! ## calculateMetrics: the samples of the matched machines -/

theorem timeSub_eq_saturated (t u : Int) : timeSub t u = saturated t u := by
  unfold timeSub saturated minDuration maxDuration
  split_ifs with h1 h2
  · rw [min_eq_right (by linarith), max_eq_left (by linarith)]
  · rw [min_eq_left (by linarith), max_eq_right (by norm_num)]
  · rw [min_eq_right (by linarith), max_eq_right (by linarith)]

theorem saturated_eq_sub (event trigger : Int) (h1 : minDuration ≤ event - trigger)
    (h2 : event - trigger ≤ maxDuration) : saturated event trigger = event - trigger := by
  unfold saturated
  rw [min_eq_right h2, max_eq_right h1]

theorem sameRecords_mapStore (t t0 : List (String × NodeMetric)) (uid : String)
    (nm : NodeMetric) (labels : Labels) (h : SameRecords t t0) (hl : mapLoad t uid = some nm) :
    SameRecords (mapStore t uid { nm with labels := labels }) t0 := by
  intro uid'
  rw [mapLoad_mapStore]
  by_cases hu : uid = uid'
  · subst hu
    have := h uid
    rw [hl] at this
    simp only [if_true]
    rw [← this]
    rfl
  · simp only [hu, if_false]
    exact h uid'

theorem sampleOf_resolveLabels (plan : Plan) (amiID : String) (epoch : Int)
    (nodeMetrics t : List (String × NodeMetric)) (x : String × MachineInfo)
    (s : String × NodeReadyMetric) (h : SampleOf plan amiID epoch nodeMetrics x s.2) :
    SampleOf plan amiID epoch nodeMetrics x (resolveLabels t s) := by
  obtain ⟨nm, trigger, labels, h1, h2, h3⟩ := h
  unfold resolveLabels
  cases ht : mapLoad t s.1 with
  | none => exact ⟨nm, trigger, labels, h1, h2, h3⟩
  | some nm' =>
    refine ⟨nm, trigger, nm'.labels, h1, h2, ?_⟩
    simp only [h3]
    rfl

theorem metricsLoop_spec (plan : Plan) (amiID : String) (epoch : Int)
    (rangeOrder : Labels → List String) (nodeMetrics : List (String × NodeMetric)) :
    ∀ (machines : List (String × MachineInfo)) (st : MetricsState),
      SameRecords st.nodeMetrics nodeMetrics →
      (epoch ≠ 0 ∨ OwnersInPlan plan machines nodeMetrics) →
      ∃ st', metricsLoop plan amiID epoch rangeOrder machines st = .ok st' ∧
        ∃ new, st'.normLatencies = st.normLatencies ++ new ∧
          List.Forall₂ (fun x s => SampleOf plan amiID epoch nodeMetrics x s.2)
            (matchedMachines machines nodeMetrics) new := by
  intro machines
  induction machines with
  | nil =>
    intro st _ _
    exact ⟨st, rfl, [], by simp, by simp [matchedMachines]⟩
  | cons x rest ih =>
    intro st hsame hown
    have hown' : epoch ≠ 0 ∨ OwnersInPlan plan rest nodeMetrics := by
      rcases hown with h | h
      · exact Or.inl h
      · exact Or.inr (fun y hy => h y (List.mem_cons_of_mem _ hy))
    have hrel := hsame x.2.nodeUID
    cases hcur : mapLoad st.nodeMetrics x.2.nodeUID with
    | none =>
      rw [hcur] at hrel
      have horig : mapLoad nodeMetrics x.2.nodeUID = none := by
        cases h0 : mapLoad nodeMetrics x.2.nodeUID with
        | none => rfl
        | some nm => rw [h0] at hrel; simp at hrel
      obtain ⟨st', hrun, new, hnew, hall⟩ :=
        ih { st with machineSetName :=
              match ownerGroup x.1 with
              | some g => g
              | none => st.machineSetName } hsame hown'
      refine ⟨st', ?_, new, hnew, ?_⟩
      · simp only [metricsLoop, metricsBody, hcur]
        exact hrun
      · simpa [matchedMachines, List.filter_cons, horig] using hall
    | some nm' =>
      rw [hcur] at hrel
      obtain ⟨nm, horig, hnm⟩ : ∃ nm, mapLoad nodeMetrics x.2.nodeUID = some nm ∧
          withoutLabels nm' = withoutLabels nm := by
        cases h0 : mapLoad nodeMetrics x.2.nodeUID with
        | none => rw [h0] at hrel; simp at hrel
        | some nm => rw [h0] at hrel; exact ⟨nm, rfl, by simpa using hrel⟩
      obtain ⟨trigger, htime, htrig⟩ : ∃ trigger,
          scaleEventTime plan epoch
            (match ownerGroup x.1 with
              | some g => g
              | none => st.machineSetName) = .ok trigger ∧
          TriggerIs plan epoch x.1 trigger := by
        by_cases he : epoch = 0
        · rcases hown with h | h
          · exact absurd he h
          · obtain ⟨g, hg, hplan⟩ := h x (List.mem_cons_self _ _) (by simp [horig])
            cases hp : mapLoad plan g with
            | none => rw [hp] at hplan; simp at hplan
            | some e =>
              refine ⟨e.lastUpdatedTime, by simp [scaleEventTime, he, hg, hp], ?_⟩
              simp only [TriggerIs, he, ne_eq, not_true_eq_false, if_false]
              exact ⟨g, e, hg, hp, rfl⟩
        · exact ⟨unixTime epoch, by simp [scaleEventTime, he], by simp [TriggerIs, he]⟩
      obtain ⟨st', hrun, new, hnew, hall⟩ :=
        ih { machineSetName :=
              match ownerGroup x.1 with
              | some g => g
              | none => st.machineSetName
             nodeMetrics := mapStore st.nodeMetrics x.2.nodeUID
               { nm' with labels := sanitizeLabels (rangeOrder nm'.labels) nm'.labels }
             normLatencies := st.normLatencies ++
               [(x.2.nodeUID, sampleFor trigger amiID x.2 nm'
                  (sanitizeLabels (rangeOrder nm'.labels) nm'.labels))] }
          (sameRecords_mapStore _ _ _ _ _ hsame hcur) hown'
      refine ⟨st', ?_, (x.2.nodeUID, sampleFor trigger amiID x.2 nm'
        (sanitizeLabels (rangeOrder nm'.labels) nm'.labels)) :: new, by rw [hnew]; simp, ?_⟩
      · simp only [metricsLoop, metricsBody, hcur, htime]
        exact hrun
      · have hm : matchedMachines (x :: rest) nodeMetrics =
            x :: matchedMachines rest nodeMetrics := by
          simp [matchedMachines, List.filter_cons, horig]
        rw [hm]
        refine List.Forall₂.cons
          ⟨nm, trigger, sanitizeLabels (rangeOrder nm'.labels) nm'.labels, horig, htrig, ?_⟩ hall
        show sampleFor trigger amiID x.2 nm' _ = sampleFor trigger amiID x.2 (withoutLabels nm) _
        rw [← hnm]
        rfl

theorem calculateMetrics_spec (plan : Plan) (machines : List (String × MachineInfo))
    (nodeMetrics : List (String × NodeMetric)) (amiID : String) (epoch : Int)
    (rangeOrder : Labels → List String)
    (h : epoch ≠ 0 ∨ OwnersInPlan plan machines nodeMetrics) :
    ∃ samples, calculateMetrics plan machines nodeMetrics amiID epoch rangeOrder = .ok samples ∧
      List.Forall₂ (SampleOf plan amiID epoch nodeMetrics)
        (matchedMachines machines nodeMetrics) samples := by
  obtain ⟨st', hrun, new, hnew, hall⟩ :=
    metricsLoop_spec plan amiID epoch rangeOrder nodeMetrics machines
      { machineSetName := "", nodeMetrics := nodeMetrics, normLatencies := [] }
      (fun _ => rfl) h
  refine ⟨st'.normLatencies.map (resolveLabels st'.nodeMetrics), by
    simp [calculateMetrics, hrun], ?_⟩
  simp only [List.nil_append] at hnew
  rw [hnew, List.forall₂_map_right_iff]
  exact List.Forall₂.imp (fun x s hs => sampleOf_resolveLabels _ _ _ _ _ x s hs) hall

theorem matchedMachines_length_le (machines : List (String × MachineInfo))
    (nodeMetrics : List (String × NodeMetric)) :
    (matchedMachines machines nodeMetrics).length ≤ machines.length :=
  List.length_filter_le _ _

/-! ## calculateMetrics: every emitted sample -/

theorem unixTime_eq (sec : Int) (h1 : minInt64 ≤ sec + 62135596800)
    (h2 : sec + 62135596800 ≤ maxInt64) : unixTime sec = sec * 1000000000 := by
  unfold unixTime unixToInternal
  rw [wrapInt_eq _ h1 h2]
  ring

theorem sampleEmitted_resolveLabels (plan : Plan) (amiID : String) (epoch : Int)
    (nodeMetrics t : List (String × NodeMetric)) (x : String × MachineInfo)
    (s : String × NodeReadyMetric) (h : SampleEmitted plan amiID epoch nodeMetrics x s.2) :
    SampleEmitted plan amiID epoch nodeMetrics x (resolveLabels t s) := by
  obtain ⟨nm, trigger, labels, h1, h2, h3⟩ := h
  unfold resolveLabels
  cases ht : mapLoad t s.1 with
  | none => exact ⟨nm, trigger, labels, h1, h2, h3⟩
  | some nm' =>
    refine ⟨nm, trigger, nm'.labels, h1, h2, ?_⟩
    simp only [h3]
    rfl

theorem metricsLoop_sound (plan : Plan) (amiID : String) (epoch : Int)
    (rangeOrder : Labels → List String) (nodeMetrics : List (String × NodeMetric)) :
    ∀ (machines : List (String × MachineInfo)) (st st' : MetricsState),
      SameRecords st.nodeMetrics nodeMetrics →
      metricsLoop plan amiID epoch rangeOrder machines st = .ok st' →
      ∃ new, st'.normLatencies = st.normLatencies ++ new ∧
        List.Forall₂ (fun x s => SampleEmitted plan amiID epoch nodeMetrics x s.2)
          (matchedMachines machines nodeMetrics) new := by
  intro machines
  induction machines with
  | nil =>
    intro st st' _ hrun
    simp only [metricsLoop, Except.ok.injEq] at hrun
    subst hrun
    exact ⟨[], by simp, by simp [matchedMachines]⟩
  | cons x rest ih =>
    intro st st' hsame hrun
    have hrel := hsame x.2.nodeUID
    cases hcur : mapLoad st.nodeMetrics x.2.nodeUID with
    | none =>
      rw [hcur] at hrel
      have horig : mapLoad nodeMetrics x.2.nodeUID = none := by
        cases h0 : mapLoad nodeMetrics x.2.nodeUID with
        | none => rfl
        | some nm => rw [h0] at hrel; simp at hrel
      simp only [metricsLoop, metricsBody, hcur] at hrun
      obtain ⟨new, hnew, hall⟩ :=
        ih { st with machineSetName :=
              match ownerGroup x.1 with
              | some g => g
              | none => st.machineSetName } st' hsame hrun
      exact ⟨new, hnew, by simpa [matchedMachines, List.filter_cons, horig] using hall⟩
    | some nm' =>
      rw [hcur] at hrel
      obtain ⟨nm, horig, hnm⟩ : ∃ nm, mapLoad nodeMetrics x.2.nodeUID = some nm ∧
          withoutLabels nm' = withoutLabels nm := by
        cases h0 : mapLoad nodeMetrics x.2.nodeUID with
        | none => rw [h0] at hrel; simp at hrel
        | some nm => rw [h0] at hrel; exact ⟨nm, rfl, by simpa using hrel⟩
      cases htime : scaleEventTime plan epoch
          (match ownerGroup x.1 with
            | some g => g
            | none => st.machineSetName) with
      | error f =>
        simp [metricsLoop, metricsBody, hcur, htime] at hrun
      | ok trigger =>
        have htrig : TriggerUsed plan epoch x.1 trigger := by
          unfold TriggerUsed
          by_cases he : epoch = 0
          · simp only [he, ne_eq, not_true_eq_false, if_false]
            simp only [scaleEventTime, he, if_true] at htime
            cases hp : mapLoad plan
                (match ownerGroup x.1 with
                  | some g => g
                  | none => st.machineSetName) with
            | none => rw [hp] at htime; simp at htime
            | some e =>
              rw [hp] at htime
              simp only [Except.ok.injEq] at htime
              refine ⟨_, e, hp, htime.symm, ?_⟩
              intro g' hg'
              simp [hg']
          · simp only [ne_eq, he, not_false_eq_true, if_true]
            simp only [scaleEventTime, he, if_false, Except.ok.injEq] at htime
            exact htime.symm
        simp only [metricsLoop, metricsBody, hcur, htime] at hrun
        obtain ⟨new, hnew, hall⟩ :=
          ih { machineSetName :=
                match ownerGroup x.1 with
                | some g => g
                | none => st.machineSetName
               nodeMetrics := mapStore st.nodeMetrics x.2.nodeUID
                 { nm' with labels := sanitizeLabels (rangeOrder nm'.labels) nm'.labels }
               normLatencies := st.normLatencies ++
                 [(x.2.nodeUID, sampleFor trigger amiID x.2 nm'
                    (sanitizeLabels (rangeOrder nm'.labels) nm'.labels))] } st'
            (sameRecords_mapStore _ _ _ _ _ hsame hcur) hrun
        refine ⟨(x.2.nodeUID, sampleFor trigger amiID x.2 nm'
          (sanitizeLabels (rangeOrder nm'.labels) nm'.labels)) :: new, by rw [hnew]; simp, ?_⟩
        have hm : matchedMachines (x :: rest) nodeMetrics =
            x :: matchedMachines rest nodeMetrics := by
          simp [matchedMachines, List.filter_cons, horig]
        rw [hm]
        refine List.Forall₂.cons
          ⟨nm, trigger, sanitizeLabels (rangeOrder nm'.labels) nm'.labels, horig, htrig, ?_⟩ hall
        show sampleFor trigger amiID x.2 nm' _ = sampleFor trigger amiID x.2 (withoutLabels nm) _
        rw [← hnm]
        rfl

theorem calculateMetrics_sound (plan : Plan) (machines : List (String × MachineInfo))
    (nodeMetrics : List (String × NodeMetric)) (amiID : String) (epoch : Int)
    (rangeOrder : Labels → List String) (samples : List NodeReadyMetric)
    (hrun : calculateMetrics plan machines nodeMetrics amiID epoch rangeOrder = .ok samples) :
    List.Forall₂ (SampleEmitted plan amiID epoch nodeMetrics)
      (matchedMachines machines nodeMetrics) samples := by
  unfold calculateMetrics at hrun
  cases hloop : metricsLoop plan amiID epoch rangeOrder machines
      { machineSetName := "", nodeMetrics := nodeMetrics, normLatencies := [] } with
  | error f => rw [hloop] at hrun; simp at hrun
  | ok st' =>
    rw [hloop] at hrun
    simp only [Except.ok.injEq] at hrun
    subst hrun
    obtain ⟨new, hnew, hall⟩ :=
      metricsLoop_sound plan amiID epoch rangeOrder nodeMetrics machines _ st'
        (fun _ => rfl) hloop
    simp only [List.nil_append] at hnew
    rw [hnew, List.forall₂_map_right_iff]
    exact List.Forall₂.imp (fun x s hs => sampleEmitted_resolveLabels _ _ _ _ _ x s hs) hall

/-! ## waitForMachineSets: the events -/

theorem foldl_rangeCallback_events (waitForMachineSet : String → Int → Bool)
    (triggerTime : Time) :
    ∀ (l : Plan) (acc : Plan × List WaitEvent),
      (l.foldl (rangeCallback waitForMachineSet triggerTime) acc).2 =
        acc.2 ++ l.flatMap (waitEventsOf waitForMachineSet) := by
  intro l
  induction l with
  | nil => intro acc; simp
  | cons x l ih =>
    intro acc
    rw [List.foldl_cons, ih]
    simp [rangeCallback, waitEventsOf, List.flatMap_cons, List.append_assoc]

theorem waitForMachineSets_events (waitForMachineSet : String → Int → Bool)
    (waitForNodes : Bool) (plan : Plan) (triggerTime : Time) :
    (waitForMachineSets waitForMachineSet waitForNodes plan triggerTime).events =
      plan.flatMap (waitEventsOf waitForMachineSet) ++
        [WaitEvent.allScaledLogged, WaitEvent.nodesWaited] := by
  simp [waitForMachineSets, foldl_rangeCallback_events]

/-! ## calculateMetrics: a label without a period -/

theorem sanitizeLabels_nil (order : List String) : sanitizeLabels order [] = [] := by
  induction order with
  | nil => rfl
  | cons k rest ih =>
    simp only [sanitizeLabels, List.foldl_cons] at ih ⊢
    simpa [sanitizeEntry, mapLoad] using ih

theorem sanitizeLabels_single_plain (key value : String) (hkey : replaceDots key = key)
    (order : List String) (hmem : key ∈ order) :
    sanitizeLabels order [(key, value)] = [] := by
  induction order with
  | nil => simp at hmem
  | cons k rest ih =>
    simp only [sanitizeLabels, List.foldl_cons]
    by_cases hk : key = k
    · subst hk
      have : sanitizeEntry [(key, value)] key = [] := by
        simp [sanitizeEntry, mapLoad, mapStore, mapDelete, hkey]
      rw [this]
      exact sanitizeLabels_nil rest
    · have hstep : sanitizeEntry [(key, value)] k = [(key, value)] := by
        simp [sanitizeEntry, mapLoad, hk]
      rw [hstep]
      have hrest : key ∈ rest := by
        rcases List.mem_cons.1 hmem with h | h
        · exact absurd h hk
        · exact h
      exact ih hrest

/-! ## Claims on adjustMachineSets -/

theorem adjustMachineSets_nil (d : Int) : adjustMachineSets [] d = .ok ([], []) := by
  simp [adjustMachineSets, outerLoop, initState, mapKeys]

theorem ne_nil_of_groupCount_pos (m : SizeMap) (h : 0 < groupCount m) : m ≠ [] := by
  intro hm
  subst hm
  simp [groupCount] at h

/-- C1 as stated fails at the upper end of the Go `int`: on the size map
`{9223372036854775807: [A]}` and a request of `1` the plan holds `A` with
`PrevReplicas = 9223372036854775807` and the wrapped `CurrentReplicas =
-9223372036854775808`, so its growth is not `1`. -/
theorem adjustMachineSets_growth_wraps :
    WellFormed [(9223372036854775807, ["A"])] ∧ 0 < groupCount [(9223372036854775807, ["A"])] ∧
    ∃ plan m', adjustMachineSets [(9223372036854775807, ["A"])] 1 = .ok (plan, m') ∧
      plan.map (fun e => (e.1, e.2.prevReplicas, e.2.currentReplicas)) =
        [("A", 9223372036854775807, -9223372036854775808)] ∧
      planGrowth plan ≠ 1 :=
  ⟨by decide, by decide,
    [("A", ⟨zeroTime, 9223372036854775807, -9223372036854775808⟩)],
    [(-9223372036854775808, ["A"])], by rfl, by decide, by decide⟩

/-- C1, amended: on a size map whose buckets are non-empty with pairwise distinct group
names and that holds at least one group, and for a request `d ≥ 1`, with the sizes in the
range of the Go `int` and the least size plus `d` at most the largest `int`,
`adjustMachineSets` returns without a runtime failure and the growth of the plan, the sum
of `CurrentReplicas - PrevReplicas`, is exactly `d`; on the empty size map the plan is
empty, whatever the request. -/
theorem adjustMachineSets_total_growth (m : SizeMap) (d : Int) (hwf : WellFormed m)
    (hgroups : 0 < groupCount m) (hd : 1 ≤ d) (hr : InRange m d) :
    (∃ plan m', adjustMachineSets m d = .ok (plan, m') ∧ planGrowth plan = d) ∧
      ∀ d' : Int, ∃ m', adjustMachineSets [] d' = .ok ([], m') := by
  refine ⟨?_, fun d' => ⟨[], adjustMachineSets_nil d'⟩⟩
  obtain ⟨plan, m', v, hrun, hfin⟩ :=
    adjustMachineSets_final m d hwf (ne_nil_of_groupCount_pos m hgroups) hd hr
  exact ⟨plan, m', hrun, hfin.growth⟩

theorem adjustMachineSets_total_growth_witness :
    (∃ plan m', adjustMachineSets [(2, ["A"]), (3, ["B"]), (5, ["C"])] 10 = .ok (plan, m') ∧
        planGrowth plan = 10) ∧
      ∀ d' : Int, ∃ m', adjustMachineSets [] d' = .ok ([], m') :=
  adjustMachineSets_total_growth [(2, ["A"]), (3, ["B"]), (5, ["C"])] 10
    (by decide) (by decide) (by decide) (by decide)

/-- C2: a request of `0` on a size map with a single bucket does not return an empty plan
but fails: no group was incremented, so `modified` is false and line 110 reads
`keys[index+1]` with `index` at the last position. -/
theorem adjustMachineSets_zero_single_bucket :
    adjustMachineSets [(3, ["A"])] 0 = .error .indexOutOfRange := by
  rfl

/-- C3 as stated fails at the upper end of the Go `int`: on the size map
`{9223372036854775807: [A]}` and a request of `1` the entry of `A` has `PrevReplicas`
equal to the input size, but its `CurrentReplicas` has wrapped and is less than
`PrevReplicas`. -/
theorem adjustMachineSets_current_below_prev :
    WellFormed [(9223372036854775807, ["A"])] ∧
    ∃ plan m', adjustMachineSets [(9223372036854775807, ["A"])] 1 = .ok (plan, m') ∧
      ∃ e, ("A", e) ∈ plan ∧ e.prevReplicas = 9223372036854775807 ∧
        e.currentReplicas < e.prevReplicas :=
  ⟨by decide, [("A", ⟨zeroTime, 9223372036854775807, -9223372036854775808⟩)],
    [(-9223372036854775808, ["A"])], by rfl,
    ⟨zeroTime, 9223372036854775807, -9223372036854775808⟩, by simp, by decide, by decide⟩

/-- C3, amended: on a well-formed size map and for a request `d ≥ 1`, with the sizes in
the range of the Go `int` and the least size plus `d` at most the largest `int`,
`adjustMachineSets` returns, and every entry of its plan has as `PrevReplicas` the size
of the bucket that holds the group in the input map, and `PrevReplicas ≤
CurrentReplicas`. -/
theorem adjustMachineSets_prev_is_input_size (m : SizeMap) (d : Int) (hwf : WellFormed m)
    (hd : 1 ≤ d) (hr : InRange m d) :
    ∃ plan m', adjustMachineSets m d = .ok (plan, m') ∧
      ∀ g e, (g, e) ∈ plan →
        (∃ bucket, mapLoad m e.prevReplicas = some bucket ∧ g ∈ bucket) ∧
          e.prevReplicas ≤ e.currentReplicas := by
  by_cases hne : m = []
  · subst hne
    exact ⟨[], [], adjustMachineSets_nil d, by simp⟩
  · obtain ⟨plan, m', v, hrun, hfin⟩ := adjustMachineSets_final m d hwf hne hd hr
    refine ⟨plan, m', hrun, ?_⟩
    intro g e hmem
    obtain ⟨_, h2, h3⟩ := hfin.entries g e (mapLoad_of_mem plan hfin.nodup g e hmem)
    exact ⟨mem_bucketOf m _ g h3, le_of_lt h2⟩

theorem adjustMachineSets_prev_is_input_size_witness :
    ∃ plan m', adjustMachineSets [(2, ["A"]), (3, ["B"]), (5, ["C"])] 10 = .ok (plan, m') ∧
      ∀ g e, (g, e) ∈ plan →
        (∃ bucket, mapLoad [(2, ["A"]), (3, ["B"]), (5, ["C"])] e.prevReplicas = some bucket ∧
            g ∈ bucket) ∧
          e.prevReplicas ≤ e.currentReplicas :=
  adjustMachineSets_prev_is_input_size [(2, ["A"]), (3, ["B"]), (5, ["C"])] 10
    (by decide) (by decide) (by decide)

/-- C4 as stated fails at the upper end of the Go `int`: on the size map
`{9223372036854775806: [A], 9223372036854775807: [B]}` and a request of `2`, a multiple
of the two groups, `A` ends at `9223372036854775807` and `B` wraps to
`-9223372036854775808`, so the largest `CurrentReplicas` exceeds the least by more than
`1`. -/
theorem adjustMachineSets_leveling_wraps :
    WellFormed [(9223372036854775806, ["A"]), (9223372036854775807, ["B"])] ∧
    ((groupCount [(9223372036854775806, ["A"]), (9223372036854775807, ["B"])] : Nat) : Int) ∣ 2 ∧
    ∃ plan m', adjustMachineSets
        [(9223372036854775806, ["A"]), (9223372036854775807, ["B"])] 2 = .ok (plan, m') ∧
      ∃ hi ∈ plan, ∃ lo ∈ plan, 1 < hi.2.currentReplicas - lo.2.currentReplicas :=
  ⟨by decide, by decide,
    [("A", ⟨zeroTime, 9223372036854775806, 9223372036854775807⟩),
      ("B", ⟨zeroTime, 9223372036854775807, -9223372036854775808⟩)],
    [(9223372036854775807, ["A"]), (-9223372036854775808, ["B"])], by rfl,
    ("A", ⟨zeroTime, 9223372036854775806, 9223372036854775807⟩), by simp,
    ("B", ⟨zeroTime, 9223372036854775807, -9223372036854775808⟩), by simp, by decide⟩

/-- C4, amended: on a well-formed size map and for a positive request that is an exact
multiple of the number of groups, with the sizes in the range of the Go `int` and the
least size plus the request at most the largest `int`, `adjustMachineSets` returns, and
any two `CurrentReplicas` of its plan differ by at most one: the largest exceeds the
least by at most `1`. -/
theorem adjustMachineSets_leveling (m : SizeMap) (d : Int) (hwf : WellFormed m)
    (hd : 0 < d) (hmul : (groupCount m : Int) ∣ d) (hr : InRange m d) :
    ∃ plan m', adjustMachineSets m d = .ok (plan, m') ∧
      ∀ hi ∈ plan, ∀ lo ∈ plan, hi.2.currentReplicas - lo.2.currentReplicas ≤ 1 := by
  by_cases hne : m = []
  · subst hne
    exact ⟨[], [], adjustMachineSets_nil d, by simp⟩
  · obtain ⟨plan, m', v, hrun, hfin⟩ := adjustMachineSets_final m d hwf hne (by omega) hr
    refine ⟨plan, m', hrun, ?_⟩
    intro hi hhi lo hlo
    obtain ⟨h1, _, _⟩ := hfin.entries hi.1 hi.2 (mapLoad_of_mem plan hfin.nodup hi.1 hi.2 hhi)
    obtain ⟨l1, _, _⟩ := hfin.entries lo.1 lo.2 (mapLoad_of_mem plan hfin.nodup lo.1 lo.2 hlo)
    omega

theorem adjustMachineSets_leveling_witness :
    ∃ plan m', adjustMachineSets [(2, ["A"]), (3, ["B"]), (5, ["C"])] 6 = .ok (plan, m') ∧
      ∀ hi ∈ plan, ∀ lo ∈ plan, hi.2.currentReplicas - lo.2.currentReplicas ≤ 1 :=
  adjustMachineSets_leveling [(2, ["A"]), (3, ["B"]), (5, ["C"])] 6
    (by decide) (by decide) (by decide) (by decide)

/-- C5 as stated fails: on `{2: [A], 3: [B], 5: [C]}` and a request of `4` the plan does
not hold `B: 3 -> 4`. -/
theorem adjustMachineSets_example_four_not_as_stated :
    ¬ ∃ plan m', adjustMachineSets [(2, ["A"]), (3, ["B"]), (5, ["C"])] 4 = .ok (plan, m') ∧
        ∃ e, mapLoad plan "B" = some e ∧ e.prevReplicas = 3 ∧ e.currentReplicas = 4 := by
  rintro ⟨plan, m', hrun, e, he, _, hcur⟩
  have hval : adjustMachineSets [(2, ["A"]), (3, ["B"]), (5, ["C"])] 4 =
      .ok ([("A", ⟨zeroTime, 2, 4⟩), ("B", ⟨zeroTime, 3, 5⟩)], [(5, ["C", "B"]), (4, ["A"])]) := by
    rfl
  rw [hval] at hrun
  injection hrun with hrun
  injection hrun with hplan _
  subst hplan
  have hB : mapLoad [("A", (⟨zeroTime, 2, 4⟩ : MachineSetInfo)), ("B", ⟨zeroTime, 3, 5⟩)] "B" =
      some ⟨zeroTime, 3, 5⟩ := by decide
  rw [hB] at he
  injection he with he
  subst he
  simp at hcur

/-- C5, amended: on `{2: [A], 3: [B], 5: [C]}` and a request of `4` the plan is exactly
`{A: 2 -> 4, B: 3 -> 5}`, `C` is not in the plan, and its growth is `4`. -/
theorem adjustMachineSets_example_four :
    ∃ plan m', adjustMachineSets [(2, ["A"]), (3, ["B"]), (5, ["C"])] 4 = .ok (plan, m') ∧
      plan.map (fun e => (e.1, e.2.prevReplicas, e.2.currentReplicas)) =
        [("A", 2, 4), ("B", 3, 5)] ∧
      mapLoad plan "C" = none ∧ planGrowth plan = 4 :=
  ⟨[("A", ⟨zeroTime, 2, 4⟩), ("B", ⟨zeroTime, 3, 5⟩)], [(5, ["C", "B"]), (4, ["A"])],
    by rfl, by decide, by decide, by decide⟩

/-- C6: a request of `0` on the size map that a request of `4` has left changes that
map: the bucket of size `4` is deleted and its group `A` is in no bucket any more. -/
theorem adjustMachineSets_zero_drops_group :
    adjustMachineSets [(2, ["A"]), (3, ["B"]), (5, ["C"])] 4 =
        .ok ([("A", ⟨zeroTime, 2, 4⟩), ("B", ⟨zeroTime, 3, 5⟩)],
          [(5, ["C", "B"]), (4, ["A"])]) ∧
      adjustMachineSets [(5, ["C", "B"]), (4, ["A"])] 0 = .ok ([], [(5, ["C", "B"])]) ∧
      mapLoad [(5, ["C", "B"]), (4, ["A"])] 4 = some ["A"] ∧
      mapLoad [(5, ["C", "B"])] 4 = (none : Option (List String)) :=
  ⟨by rfl, by rfl, by decide, by decide⟩

/-! ## Claim on waitForMachineSets -/

/-- C10: `waitForMachineSets` leaves a plan with the same group names, in which every
entry has the trigger time as `LastUpdatedTime` and the `PrevReplicas` and
`CurrentReplicas` it had; the function returns unless the wait for the nodes fails. -/
theorem waitForMachineSets_records_trigger (waitForMachineSet : String → Int → Bool)
    (waitForNodes : Bool) (plan : Plan) (triggerTime : Time) (hnd : (mapKeys plan).Nodup) :
    (waitForMachineSets waitForMachineSet waitForNodes plan triggerTime).aborted = waitForNodes ∧
    mapKeys (waitForMachineSets waitForMachineSet waitForNodes plan triggerTime).plan =
      mapKeys plan ∧
    (∀ e ∈ (waitForMachineSets waitForMachineSet waitForNodes plan triggerTime).plan,
      e.2.lastUpdatedTime = triggerTime) ∧
    (∀ g e, mapLoad plan g = some e →
      ∃ e', mapLoad (waitForMachineSets waitForMachineSet waitForNodes plan triggerTime).plan g =
          some e' ∧
        e'.prevReplicas = e.prevReplicas ∧ e'.currentReplicas = e.currentReplicas) := by
  rw [waitForMachineSets_plan _ _ _ _ hnd]
  refine ⟨rfl, mapKeys_map_stamped _ _, ?_, ?_⟩
  · intro e he
    obtain ⟨x, _, hx⟩ := List.mem_map.1 he
    subst hx
    rfl
  · intro g e he
    rw [mapLoad_map_stamped, he]
    exact ⟨_, rfl, rfl, rfl⟩

theorem waitForMachineSets_records_trigger_witness :
    (waitForMachineSets (fun _ _ => true) false
        [("A", ⟨zeroTime, 2, 4⟩), ("B", ⟨zeroTime, 3, 5⟩)] 1700000000000000000).aborted = false ∧
    mapKeys (waitForMachineSets (fun _ _ => true) false
        [("A", ⟨zeroTime, 2, 4⟩), ("B", ⟨zeroTime, 3, 5⟩)] 1700000000000000000).plan =
      mapKeys [("A", (⟨zeroTime, 2, 4⟩ : MachineSetInfo)), ("B", ⟨zeroTime, 3, 5⟩)] ∧
    (∀ e ∈ (waitForMachineSets (fun _ _ => true) false
        [("A", ⟨zeroTime, 2, 4⟩), ("B", ⟨zeroTime, 3, 5⟩)] 1700000000000000000).plan,
      e.2.lastUpdatedTime = 1700000000000000000) ∧
    (∀ g e, mapLoad [("A", (⟨zeroTime, 2, 4⟩ : MachineSetInfo)), ("B", ⟨zeroTime, 3, 5⟩)] g =
        some e →
      ∃ e', mapLoad (waitForMachineSets (fun _ _ => true) false
          [("A", ⟨zeroTime, 2, 4⟩), ("B", ⟨zeroTime, 3, 5⟩)] 1700000000000000000).plan g =
          some e' ∧
        e'.prevReplicas = e.prevReplicas ∧ e'.currentReplicas = e.currentReplicas) :=
  waitForMachineSets_records_trigger (fun _ _ => true) false
    [("A", ⟨zeroTime, 2, 4⟩), ("B", ⟨zeroTime, 3, 5⟩)] 1700000000000000000 (by decide)

/-! ## Claims on calculateMetrics -/

/-- C7 as stated fails: with the trigger epoch `1700000000000` (a time in milliseconds
passed as seconds) and a machine created at `1700000000` s, `MachineCreationLatency` is
not the difference of the two timestamps in nanoseconds divided by `10^6`: `Sub` has
returned the least duration. -/
theorem calculateMetrics_latency_not_plain_difference :
    ∃ smp, calculateMetrics []
        [("ms-1", ⟨"uid1", 1700000000000000000, 1700000060000000000⟩)]
        [("uid1", ⟨"u", "node1", [], 1700000030000000000, 1700000090000000000⟩)]
        "ami" 1700000000000 mapKeys = .ok [smp] ∧
      smp.scaleEventTimestamp = 1700000000000 * 1000000000 ∧
      smp.machineCreationLatency = -9223372036854 ∧
      smp.machineCreationLatency ≠
        Int.tdiv (1700000000000000000 - 1700000000000 * 1000000000) 1000000 :=
  ⟨_, by rfl, by decide, by decide, by decide⟩

/-- C7, amended: every sample that `calculateMetrics` emits has as its four latencies the
difference `event - trigger` in nanoseconds, cut to the range of a `time.Duration`,
divided by `10^6` and truncated toward zero, for the machine creation, machine ready,
node observed and node ready timestamps; negative values are kept.  The trigger is
`time.Unix(scaleEventEpoch, 0)` when `scaleEventEpoch` is not `0`, else the
`LastUpdatedTime` of a plan entry, which is the entry of the owning group whenever the
machine name has a hyphen.  Within the range of a duration the cut difference is the
difference itself, and `time.Unix(sec, 0)` is `sec` seconds after the Unix epoch as long
as `sec + 62135596800` is an `int64`. -/
theorem calculateMetrics_latencies (plan : Plan) (machines : List (String × MachineInfo))
    (nodeMetrics : List (String × NodeMetric)) (amiID : String) (epoch : Int)
    (rangeOrder : Labels → List String) (samples : List NodeReadyMetric)
    (hrun : calculateMetrics plan machines nodeMetrics amiID epoch rangeOrder = .ok samples) :
    List.Forall₂
      (fun x smp => ∃ nm trigger, mapLoad nodeMetrics x.2.nodeUID = some nm ∧
        TriggerUsed plan epoch x.1 trigger ∧ smp.scaleEventTimestamp = trigger ∧
        smp.machineCreationLatency =
          Int.tdiv (saturated x.2.creationTimestamp trigger) 1000000 ∧
        smp.machineReadyLatency = Int.tdiv (saturated x.2.readyTimestamp trigger) 1000000 ∧
        smp.nodeCreationLatency = Int.tdiv (saturated nm.timestamp trigger) 1000000 ∧
        smp.nodeReadyLatency = Int.tdiv (saturated nm.nodeReady trigger) 1000000)
      (machines.filter (fun x => (mapLoad nodeMetrics x.2.nodeUID).isSome)) samples ∧
    (∀ event trigger : Int, minDuration ≤ event - trigger → event - trigger ≤ maxDuration →
      saturated event trigger = event - trigger) ∧
    ∀ sec : Int, minInt64 ≤ sec + 62135596800 → sec + 62135596800 ≤ maxInt64 →
      unixTime sec = sec * 1000000000 := by
  refine ⟨?_, saturated_eq_sub, unixTime_eq⟩
  have hall := calculateMetrics_sound plan machines nodeMetrics amiID epoch rangeOrder
    samples hrun
  refine List.Forall₂.imp ?_ hall
  rintro x smp ⟨nm, trigger, labels, h1, h2, h3⟩
  subst h3
  refine ⟨nm, trigger, h1, h2, rfl, ?_, ?_, ?_, ?_⟩ <;>
    simp only [sampleFor, milliseconds, timeSub_eq_saturated, withoutLabels]

theorem calculateMetrics_latencies_witness :
    List.Forall₂
      (fun x smp => ∃ nm trigger,
        mapLoad [("uid1", (⟨"u", "node1", [], 1700000030000000000, 1700000090000000000⟩ :
            NodeMetric)),
          ("uid2", ⟨"u", "node2", [], 1700000031000000000, 1700000091000000000⟩)]
          x.2.nodeUID = some nm ∧
        TriggerUsed [("ms", ⟨1699999999000000000, 1, 3⟩)] 0 x.1 trigger ∧
        smp.scaleEventTimestamp = trigger ∧
        smp.machineCreationLatency =
          Int.tdiv (saturated x.2.creationTimestamp trigger) 1000000 ∧
        smp.machineReadyLatency = Int.tdiv (saturated x.2.readyTimestamp trigger) 1000000 ∧
        smp.nodeCreationLatency = Int.tdiv (saturated nm.timestamp trigger) 1000000 ∧
        smp.nodeReadyLatency = Int.tdiv (saturated nm.nodeReady trigger) 1000000)
      (([("ms-1", ⟨"uid1", 1700000000000000000, 1700000060000000000⟩),
        ("x", ⟨"uid2", 1700000001000000000, 1700000061000000000⟩)] :
          List (String × MachineInfo)).filter
        (fun x => (mapLoad [("uid1", (⟨"u", "node1", [], 1700000030000000000,
            1700000090000000000⟩ : NodeMetric)),
          ("uid2", ⟨"u", "node2", [], 1700000031000000000, 1700000091000000000⟩)]
          x.2.nodeUID).isSome))
      [sampleFor 1699999999000000000 "ami"
          ⟨"uid1", 1700000000000000000, 1700000060000000000⟩
          ⟨"u", "node1", [], 1700000030000000000, 1700000090000000000⟩ [],
        sampleFor 1699999999000000000 "ami"
          ⟨"uid2", 1700000001000000000, 1700000061000000000⟩
          ⟨"u", "node2", [], 1700000031000000000, 1700000091000000000⟩ []] ∧
    (∀ event trigger : Int, minDuration ≤ event - trigger → event - trigger ≤ maxDuration →
      saturated event trigger = event - trigger) ∧
    ∀ sec : Int, minInt64 ≤ sec + 62135596800 → sec + 62135596800 ≤ maxInt64 →
      unixTime sec = sec * 1000000000 :=
  calculateMetrics_latencies [("ms", ⟨1699999999000000000, 1, 3⟩)]
    [("ms-1", ⟨"uid1", 1700000000000000000, 1700000060000000000⟩),
      ("x", ⟨"uid2", 1700000001000000000, 1700000061000000000⟩)]
    [("uid1", ⟨"u", "node1", [], 1700000030000000000, 1700000090000000000⟩),
      ("uid2", ⟨"u", "node2", [], 1700000031000000000, 1700000091000000000⟩)]
    "ami" 0 mapKeys _ (by rfl)

/-- C8: in manual mode, or when every machine with a node record has a name with a
hyphen and its group in the plan, `calculateMetrics` returns, and its samples are, one by
one and in order, the samples of the machines whose `nodeUID` is a key of the node table:
each carries the timestamps of its machine and of that node record.  So there is no
sample for a machine without a node record, and there are at most as many samples as
machines. -/
theorem calculateMetrics_one_sample_per_matched_machine (plan : Plan)
    (machines : List (String × MachineInfo)) (nodeMetrics : List (String × NodeMetric))
    (amiID : String) (epoch : Int) (rangeOrder : Labels → List String)
    (h : epoch ≠ 0 ∨ OwnersInPlan plan machines nodeMetrics) :
    ∃ samples, calculateMetrics plan machines nodeMetrics amiID epoch rangeOrder = .ok samples ∧
      List.Forall₂
        (fun x smp => ∃ nm, mapLoad nodeMetrics x.2.nodeUID = some nm ∧
          smp.machineCreationTimestamp = x.2.creationTimestamp ∧
          smp.machineReadyTimestamp = x.2.readyTimestamp ∧
          smp.nodeCreationTimestamp = nm.timestamp ∧ smp.nodeReadyTimestamp = nm.nodeReady ∧
          smp.name = nm.name ∧ smp.uuid = nm.uuid)
        (machines.filter (fun x => (mapLoad nodeMetrics x.2.nodeUID).isSome)) samples ∧
      samples.length = (machines.filter (fun x => (mapLoad nodeMetrics x.2.nodeUID).isSome)).length ∧
      samples.length ≤ machines.length := by
  obtain ⟨samples, hrun, hall⟩ := calculateMetrics_spec plan machines nodeMetrics amiID epoch
    rangeOrder h
  have hlen := hall.length_eq
  refine ⟨samples, hrun, List.Forall₂.imp ?_ hall, hlen.symm, ?_⟩
  · rintro x smp ⟨nm, trigger, labels, h1, _, h3⟩
    subst h3
    exact ⟨nm, h1, rfl, rfl, rfl, rfl, rfl, rfl⟩
  · rw [← hlen]
    exact matchedMachines_length_le machines nodeMetrics

theorem calculateMetrics_one_sample_per_matched_machine_witness :
    ∃ samples, calculateMetrics [("ms", ⟨1699999999000000000, 1, 3⟩)]
        [("ms-1", ⟨"uid1", 1700000000000000000, 1700000060000000000⟩),
          ("ms-2", ⟨"uid2", 1700000000000000000, 1700000060000000000⟩)]
        [("uid1", ⟨"u", "node1", [], 1700000030000000000, 1700000090000000000⟩)]
        "ami" 0 mapKeys = .ok samples ∧
      List.Forall₂
        (fun x smp => ∃ nm,
          mapLoad [("uid1", (⟨"u", "node1", [], 1700000030000000000, 1700000090000000000⟩ :
            NodeMetric))] x.2.nodeUID = some nm ∧
          smp.machineCreationTimestamp = x.2.creationTimestamp ∧
          smp.machineReadyTimestamp = x.2.readyTimestamp ∧
          smp.nodeCreationTimestamp = nm.timestamp ∧ smp.nodeReadyTimestamp = nm.nodeReady ∧
          smp.name = nm.name ∧ smp.uuid = nm.uuid)
        (([("ms-1", ⟨"uid1", 1700000000000000000, 1700000060000000000⟩),
          ("ms-2", ⟨"uid2", 1700000000000000000, 1700000060000000000⟩)] :
            List (String × MachineInfo)).filter
          (fun x => (mapLoad [("uid1", (⟨"u", "node1", [], 1700000030000000000,
            1700000090000000000⟩ : NodeMetric))] x.2.nodeUID).isSome)) samples ∧
      samples.length =
        (([("ms-1", ⟨"uid1", 1700000000000000000, 1700000060000000000⟩),
          ("ms-2", ⟨"uid2", 1700000000000000000, 1700000060000000000⟩)] :
            List (String × MachineInfo)).filter
          (fun x => (mapLoad [("uid1", (⟨"u", "node1", [], 1700000030000000000,
            1700000090000000000⟩ : NodeMetric))] x.2.nodeUID).isSome)).length ∧
      samples.length ≤
        ([("ms-1", ⟨"uid1", 1700000000000000000, 1700000060000000000⟩),
          ("ms-2", ⟨"uid2", 1700000000000000000, 1700000060000000000⟩)] :
            List (String × MachineInfo)).length :=
  calculateMetrics_one_sample_per_matched_machine [("ms", ⟨1699999999000000000, 1, 3⟩)]
    [("ms-1", ⟨"uid1", 1700000000000000000, 1700000060000000000⟩),
      ("ms-2", ⟨"uid2", 1700000000000000000, 1700000060000000000⟩)]
    [("uid1", ⟨"u", "node1", [], 1700000030000000000, 1700000090000000000⟩)]
    "ami" 0 mapKeys
    (Or.inr (by
      intro x hx hsome
      simp only [List.mem_cons, List.mem_singleton, List.not_mem_nil, or_false] at hx
      rcases hx with hx | hx
      · subst hx
        exact ⟨"ms", by decide, by decide⟩
      · subst hx
        exact absurd hsome (by decide)))

/-- C9: the label map `{"a.b": "x"}` satisfies the premise of the claim, and the `range`
statement may produce the entry `"a_b"` that the first pass has just created; the second
pass then stores `"a_b"` and deletes it (the old key equals the new one), so the sample
is emitted without the label `"a_b"`. -/
theorem calculateMetrics_rewritten_label_lost :
    rangeLegal ["a.b", "a_b"] [("a.b", "x")] = true ∧
    sanitizeLabels ["a.b", "a_b"] [("a.b", "x")] = [] ∧
    ∃ smp, calculateMetrics []
        [("ms-1", ⟨"uid1", 1700000000000000000, 1700000060000000000⟩)]
        [("uid1", ⟨"u", "node1", [("a.b", "x")], 1700000030000000000, 1700000090000000000⟩)]
        "ami" 1699999999 (fun _ => ["a.b", "a_b"]) = .ok [smp] ∧
      mapLoad smp.labels (replaceDots "a.b") = none :=
  ⟨by decide, by decide, _, by rfl, by decide⟩

/-! ## Claims on the failure policy, on equal spreading and on labels without a period -/

/-- C11: whatever the plan and whatever the waits of the groups return, the run is
aborted exactly when the wait for the nodes returns an error; the wait of every group of
the plan is started, a failed wait of a group is logged, and the wait for the nodes is
performed after all of that, as the last event. -/
theorem waitForMachineSets_failure_policy (waitForMachineSet : String → Int → Bool)
    (waitForNodes : Bool) (plan : Plan) (triggerTime : Time) :
    ((waitForMachineSets waitForMachineSet waitForNodes plan triggerTime).aborted = true ↔
      waitForNodes = true) ∧
    (∀ x ∈ plan, WaitEvent.waitStarted x.1 (toInt32 x.2.currentReplicas) ∈
      (waitForMachineSets waitForMachineSet waitForNodes plan triggerTime).events) ∧
    (∀ x ∈ plan, waitForMachineSet x.1 (toInt32 x.2.currentReplicas) = true →
      WaitEvent.waitFailureLogged x.1 ∈
        (waitForMachineSets waitForMachineSet waitForNodes plan triggerTime).events) ∧
    ∃ before, (waitForMachineSets waitForMachineSet waitForNodes plan triggerTime).events =
        before ++ [WaitEvent.allScaledLogged, WaitEvent.nodesWaited] ∧
      WaitEvent.nodesWaited ∉ before := by
  rw [waitForMachineSets_events]
  refine ⟨Iff.rfl, ?_, ?_, _, rfl, ?_⟩
  · intro x hx
    refine List.mem_append_left _ (List.mem_flatMap.2 ⟨x, hx, ?_⟩)
    simp [waitEventsOf]
  · intro x hx hfail
    refine List.mem_append_left _ (List.mem_flatMap.2 ⟨x, hx, ?_⟩)
    simp [waitEventsOf, hfail]
  · intro hmem
    obtain ⟨x, _, hx⟩ := List.mem_flatMap.1 hmem
    unfold waitEventsOf at hx
    split_ifs at hx <;> simp at hx

/-- C12 as stated fails at the upper end of the Go `int`: on the size map
`{9223372036854775806: [A], 9223372036854775807: [B]}` and a request of `2`, the edited
group `A` ends at `9223372036854775807` while the final size of `B` has wrapped to
`-9223372036854775808`, so `A` is more than one above `B`. -/
theorem adjustMachineSets_spreading_wraps :
    WellFormed [(9223372036854775806, ["A"]), (9223372036854775807, ["B"])] ∧
    ∃ plan m', adjustMachineSets
        [(9223372036854775806, ["A"]), (9223372036854775807, ["B"])] 2 = .ok (plan, m') ∧
      ∃ x ∈ plan, ∃ k bucket g,
        mapLoad [(9223372036854775806, ["A"]), (9223372036854775807, ["B"])] k = some bucket ∧
        g ∈ bucket ∧ finalSize plan k g + 1 < x.2.currentReplicas :=
  ⟨by decide,
    [("A", ⟨zeroTime, 9223372036854775806, 9223372036854775807⟩),
      ("B", ⟨zeroTime, 9223372036854775807, -9223372036854775808⟩)],
    [(9223372036854775807, ["A"]), (-9223372036854775808, ["B"])], by rfl,
    ("A", ⟨zeroTime, 9223372036854775806, 9223372036854775807⟩), by simp,
    9223372036854775807, ["B"], "B", by decide, by simp, by decide⟩

/-- C12, amended: on a well-formed size map and for a request `d ≥ 1`, with the sizes in
the range of the Go `int` and the least size plus `d` at most the largest `int`,
`adjustMachineSets` returns, and the `CurrentReplicas` of every edited group is at most
one above the final size of every group of the input map, edited or not.  On
`{2: [A], 3: [B], 5: [C]}` and a request of `10` the growth is `10` and the final sizes
are `6`, `7` and `7`. -/
theorem adjustMachineSets_equal_spreading (m : SizeMap) (d : Int) (hwf : WellFormed m)
    (hd : 1 ≤ d) (hr : InRange m d) :
    (∃ plan m', adjustMachineSets m d = .ok (plan, m') ∧
      ∀ x ∈ plan, ∀ k bucket g, mapLoad m k = some bucket → g ∈ bucket →
        x.2.currentReplicas ≤ finalSize plan k g + 1) ∧
    ∃ plan m', adjustMachineSets [(2, ["A"]), (3, ["B"]), (5, ["C"])] 10 = .ok (plan, m') ∧
      planGrowth plan = 10 ∧
      [finalSize plan 2 "A", finalSize plan 3 "B", finalSize plan 5 "C"] = [6, 7, 7] := by
  refine ⟨?_, [("A", ⟨zeroTime, 2, 6⟩), ("B", ⟨zeroTime, 3, 7⟩), ("C", ⟨zeroTime, 5, 7⟩)],
    [(6, ["A"]), (7, ["C", "B"])], by rfl, by decide, by decide⟩
  by_cases hne : m = []
  · subst hne
    exact ⟨[], [], adjustMachineSets_nil d, by simp⟩
  · obtain ⟨plan, m', v, hrun, hfin⟩ := adjustMachineSets_final m d hwf hne hd hr
    refine ⟨plan, m', hrun, ?_⟩
    intro x hx k bucket g hk hg
    obtain ⟨h1, _, _⟩ := hfin.entries x.1 x.2 (mapLoad_of_mem plan hfin.nodup x.1 x.2 hx)
    unfold finalSize
    cases hp : mapLoad plan g with
    | some e =>
      obtain ⟨h2, _, _⟩ := hfin.entries g e hp
      simp only
      omega
    | none =>
      have hv : v ≤ k := hfin.untouched k g (by simp [bucketOf, hk, hg]) hp
      simp only
      omega

theorem adjustMachineSets_equal_spreading_witness :
    (∃ plan m', adjustMachineSets [(1, ["A", "B"]), (4, ["C"])] 3 = .ok (plan, m') ∧
      ∀ x ∈ plan, ∀ k bucket g, mapLoad [(1, ["A", "B"]), (4, ["C"])] k = some bucket →
        g ∈ bucket → x.2.currentReplicas ≤ finalSize plan k g + 1) ∧
    ∃ plan m', adjustMachineSets [(2, ["A"]), (3, ["B"]), (5, ["C"])] 10 = .ok (plan, m') ∧
      planGrowth plan = 10 ∧
      [finalSize plan 2 "A", finalSize plan 3 "B", finalSize plan 5 "C"] = [6, 7, 7] :=
  adjustMachineSets_equal_spreading [(1, ["A", "B"]), (4, ["C"])] 3
    (by decide) (by decide) (by decide)

/-- C13: the label `"zone"`, whose key has no period, is not in the emitted labels: the
pass for `"zone"` stores `Labels["zone"]` under the unchanged key and then deletes that
key, while the label `"a.b"` of the same map is emitted as `"a_b"`. -/
theorem calculateMetrics_plain_label_dropped :
    rangeLegal ["a.b", "zone"] [("a.b", "x"), ("zone", "z")] = true ∧
    replaceDots "zone" = "zone" ∧
    ∃ smp, calculateMetrics []
        [("ms-1", ⟨"uid1", 1700000000000000000, 1700000060000000000⟩)]
        [("uid1", ⟨"u", "node1", [("a.b", "x"), ("zone", "z")], 1700000030000000000,
          1700000090000000000⟩)]
        "ami" 1699999999 mapKeys = .ok [smp] ∧
      smp.labels = [("a_b", "x")] ∧ mapLoad smp.labels "zone" = none :=
  ⟨by decide, by decide, _, by rfl, by decide, by decide⟩

end WorkersScale
